import Mathlib

/-!
Verification of the Top-Down dependency-graph engine against its
natural-language specification.

The Python sources are shallowly embedded: dictionaries become ordered
association lists with Python-dict update semantics, `set` valued
adjacency is represented by membership in derived lists, the scheduler's
I/O (executor callbacks, confirmation prompts, clocks, randomness) is
abstracted into explicit oracle parameters, and the truncated SHA-256
digest is abstracted into a digest function parameter `h` about which
the collision-freeness the code relies on is an explicit hypothesis.
-/

namespace Topdown

/-- Ordered association list with Python-dict semantics: insertion keeps
the position of an existing key but replaces its value. -/
abbrev Dict (α : Type) : Type := List (String × α)

/-- `d.get(k)`: value of the first (unique) binding of `k`. -/
def dictFind {α : Type} (d : Dict α) (k : String) : Option α :=
  match d with
  | [] => none
  | (k₁, v₁) :: rest => if k₁ = k then some v₁ else dictFind rest k

/-- `d[k] = v` on a Python dict: replace in place, or append a new binding. -/
def dictInsert {α : Type} (d : Dict α) (k : String) (v : α) : Dict α :=
  match d with
  | [] => [(k, v)]
  | (k₁, v₁) :: rest =>
      if k₁ = k then (k, v) :: rest else (k₁, v₁) :: dictInsert rest k v

/-- `d.pop(k, None)`: remove the binding of `k` if present. -/
def dictRemove {α : Type} (d : Dict α) (k : String) : Dict α :=
  match d with
  | [] => []
  | (k₁, v₁) :: rest =>
      if k₁ = k then rest else (k₁, v₁) :: dictRemove rest k

/-- Keys in binding order. -/
def dictKeys {α : Type} (d : Dict α) : List String :=
  match d with
  | [] => []
  | (k₁, _) :: rest => k₁ :: dictKeys rest

/-- Values in binding order (`d.values()`). -/
def dictValues {α : Type} (d : Dict α) : List α :=
  match d with
  | [] => []
  | (_, v₁) :: rest => v₁ :: dictValues rest

theorem dictFind_insert_self {α : Type} (d : Dict α) (k : String) (v : α) :
    dictFind (dictInsert d k v) k = some v := by
  induction d with
  | nil => simp [dictInsert, dictFind]
  | cons hd rest ih =>
      obtain ⟨k₁, v₁⟩ := hd
      by_cases h : k₁ = k
      · simp [dictInsert, dictFind, h]
      · simp [dictInsert, dictFind, h, ih]

theorem dictFind_insert_other {α : Type} (d : Dict α) (k k₂ : String) (v : α)
    (hne : k₂ ≠ k) : dictFind (dictInsert d k v) k₂ = dictFind d k₂ := by
  have hne₂ : ¬ k = k₂ := fun h => hne h.symm
  induction d with
  | nil => simp [dictInsert, dictFind, hne₂]
  | cons hd rest ih =>
      obtain ⟨k₁, v₁⟩ := hd
      by_cases h : k₁ = k
      · subst h
        simp [dictInsert, dictFind, hne₂]
      · by_cases h₂ : k₁ = k₂
        · subst h₂
          simp [dictInsert, dictFind, h, ih]
        · simp [dictInsert, dictFind, h, h₂, ih]

theorem mem_dictKeys_insert {α : Type} (d : Dict α) (k k₂ : String) (v : α) :
    k₂ ∈ dictKeys (dictInsert d k v) ↔ k₂ ∈ dictKeys d ∨ k₂ = k := by
  induction d with
  | nil => simp [dictInsert, dictKeys]
  | cons hd rest ih =>
      obtain ⟨k₁, v₁⟩ := hd
      by_cases h : k₁ = k
      · subst h
        simp only [dictInsert, if_pos rfl, dictKeys, List.mem_cons]
        tauto
      · simp only [dictInsert, if_neg h, dictKeys, List.mem_cons, ih]
        tauto

theorem dictKeys_insert_nodup {α : Type} (d : Dict α) (k : String) (v : α)
    (hd : (dictKeys d).Nodup) : (dictKeys (dictInsert d k v)).Nodup := by
  induction d with
  | nil => simp [dictInsert, dictKeys]
  | cons hd₁ rest ih =>
      obtain ⟨k₁, v₁⟩ := hd₁
      simp only [dictKeys, List.nodup_cons] at hd
      by_cases h : k₁ = k
      · subst h
        simpa [dictInsert, dictKeys, List.nodup_cons] using hd
      · have hmem : k₁ ∉ dictKeys (dictInsert rest k v) := by
          intro hk
          rcases (mem_dictKeys_insert rest k k₁ v).mp hk with hk₂ | hk₂
          · exact hd.1 hk₂
          · exact h hk₂
        simp only [dictInsert, if_neg h, dictKeys, List.nodup_cons]
        exact ⟨hmem, ih hd.2⟩

/-! ### Result cache (`BuildCache`, examples/buildsystem/build.py) -/

/-- One value of `BuildCache.entries`: the dict written by `put`. -/
structure CacheEntry where
  input_hash : String
  output_hash : String
  timestamp : Nat
deriving DecidableEq, Repr

/-- `BuildCache.entries`. -/
abbrev BuildCache : Type := Dict CacheEntry

/-- `BuildCache.get`: an entry hits only when its stored `input_hash`
equals the queried one; otherwise the lookup is a miss. -/
def cacheGet (c : BuildCache) (target_id input_hash : String) : Option String :=
  match dictFind c target_id with
  | some entry =>
      if entry.input_hash = input_hash then some entry.output_hash else none
  | none => none

/-- `BuildCache.put`: store/overwrite the entry for `target_id`. -/
def cachePut (c : BuildCache) (target_id input_hash output_hash : String)
    (now : Nat) : BuildCache :=
  dictInsert c target_id
    { input_hash := input_hash, output_hash := output_hash, timestamp := now }

/-- `BuildCache.invalidate`. -/
def cacheInvalidate (c : BuildCache) (target_id : String) : BuildCache :=
  dictRemove c target_id

/-- `BuildCache.clear`. -/
def cacheClear (_c : BuildCache) : BuildCache := []

/-! ### Runtime row lookup (`td`, python/topdown_runtime.py) -/

/-- One raw JSON record of the config's `rows` list, restricted to the
fields `td` reads; a field holds `none` when missing (or not of the
type the truthiness coercions in `td` would accept). -/
structure RawRecord where
  id : Option String := none
  locked : Option Bool := none
  name : Option String := none
  args : Option String := none
  expr : Option String := none
  scope : Option String := none
deriving DecidableEq, Repr

/-- `str(r.get(f) or "")` for a string-typed field. -/
def strOrEmpty : Option String → String
  | none => ""
  | some s => s

/-- `bool(r.get("locked") or False)`. -/
def boolOrFalse : Option Bool → Bool
  | none => false
  | some b => b

/-- The frozen dataclass `TopDownRow` of python/topdown_runtime.py. -/
structure TopDownRow where
  id : String
  locked : Bool
  name : String
  args : String
  expr : String
  scope : Option String
deriving DecidableEq, Repr

/-- The `TopDownRow(...)` construction inside `td`. -/
def mkRuntimeRow (wanted : String) (r : RawRecord) : TopDownRow :=
  { id := wanted
    locked := boolOrFalse r.locked
    name := strOrEmpty r.name
    args := strOrEmpty r.args
    expr := strOrEmpty r.expr
    scope := r.scope }

/-- The error outcomes of `td`. -/
inductive TdError where
  | valueError
  | idNotFound
deriving DecidableEq, Repr

/-- Python's `str.strip()`: drop whitespace from both ends (structural,
so that concrete instances evaluate). -/
def stripStr (s : String) : String :=
  ⟨((s.data.dropWhile Char.isWhitespace).reverse.dropWhile
      Char.isWhitespace).reverse⟩

/-- The scan loop of `td`: non-dict entries (`none`) are skipped, and the
first record whose `id` equals `wanted` is returned. -/
def tdScan (rows : List (Option RawRecord)) (wanted : String) :
    Except TdError TopDownRow :=
  match rows with
  | [] => .error .idNotFound
  | none :: rest => tdScan rest wanted
  | some r :: rest =>
      if r.id = some wanted then .ok (mkRuntimeRow wanted r)
      else tdScan rest wanted

/-- `td(row_id)` on an already-loaded store whose `rows` list is `rows`. -/
def td (rows : List (Option RawRecord)) (row_id : String) :
    Except TdError TopDownRow :=
  if stripStr row_id = "" then .error .valueError
  else tdScan rows (stripStr row_id)

/-! ### Claim C8: result-cache contract -/

/-- C8: `cacheGet row_id input_hash` returns the stored `output_hash` if
and only if an entry for `row_id` exists whose stored `input_hash` equals
the queried one exactly, and returns nothing otherwise; after
`cachePut row_id i o`, the entry for `row_id` is exactly `(i, o)`
regardless of what was stored before (unconditional overwrite), so a
query with a stale input hash is a miss rather than an in-place update. -/
theorem C8_result_cache_contract :
    (∀ (c : BuildCache) (r i o : String),
        cacheGet c r i = some o ↔
          ∃ e, dictFind c r = some e ∧ e.input_hash = i ∧ e.output_hash = o) ∧
    (∀ (c : BuildCache) (r i o : String) (now : Nat),
        dictFind (cachePut c r i o now) r =
          some { input_hash := i, output_hash := o, timestamp := now }) ∧
    (∀ (c : BuildCache) (r i o : String) (now : Nat) (i₂ : String),
        cacheGet (cachePut c r i o now) r i₂ =
          if i₂ = i then some o else none) := by
  refine ⟨?_, ?_, ?_⟩
  · intro c r i o
    unfold cacheGet
    cases hfind : dictFind c r with
    | none => simp
    | some e =>
        by_cases he : e.input_hash = i
        · simp only [he, if_pos rfl]
          constructor
          · rintro h
            exact ⟨e, rfl, he, by injection h⟩
          · rintro ⟨e₂, he₂, hi₂, ho₂⟩
            injection he₂ with he₂
            subst he₂
            simp [ho₂]
        · simp only [if_neg he]
          constructor
          · rintro ⟨⟩
          · rintro ⟨e₂, he₂, hi₂, ho₂⟩
            injection he₂ with he₂
            subst he₂
            exact absurd hi₂ he
  · intro c r i o now
    exact dictFind_insert_self c r _
  · intro c r i o now i₂
    unfold cacheGet cachePut
    rw [dictFind_insert_self]
    by_cases h : i₂ = i
    · simp [h]
    · have h₂ : ¬ i = i₂ := fun hh => h hh.symm
      simp [h, h₂]

/-! ### Claim C10: first-wins duplicate resolution in `td` -/

/-- C10: if the config's `rows` list is `pre ++ [r] ++ post`, where `r`
is the first record whose `id` equals the trimmed requested id, then
`td` returns the `TopDownRow` built from `r` — whatever `post` contains,
so later records with the same id never influence the result. -/
theorem C10_td_first_match_wins (pre post : List (Option RawRecord))
    (r : RawRecord) (rid : String)
    (hw : stripStr rid ≠ "")
    (hr : r.id = some (stripStr rid))
    (hpre : ∀ rr : RawRecord, some rr ∈ pre → rr.id ≠ some (stripStr rid)) :
    td (pre ++ some r :: post) rid = .ok (mkRuntimeRow (stripStr rid) r) := by
  unfold td
  rw [if_neg hw]
  induction pre with
  | nil => simp [tdScan, hr]
  | cons hd rest ih =>
      cases hd with
      | none =>
          simp only [List.cons_append, tdScan]
          exact ih (fun rr hrr => hpre rr (List.mem_cons_of_mem _ hrr))
      | some rr =>
          have hne : ¬ rr.id = some (stripStr rid) :=
            hpre rr (List.mem_cons_self _ _)
          simp only [List.cons_append, tdScan, if_neg hne]
          exact ih (fun rr₂ hrr => hpre rr₂ (List.mem_cons_of_mem _ hrr))

/-- First raw record of the duplicate-id scenario. -/
def dupRecOne : RawRecord := { id := some "a", name := some "one" }

/-- Second raw record of the duplicate-id scenario (same id). -/
def dupRecTwo : RawRecord := { id := some "a", name := some "two" }

/-- Witness for C10: with two records both carrying id `a`, `td` returns
the row built from the first one. -/
theorem C10_td_first_match_wins_witness :
    td [some dupRecOne, some dupRecTwo] "a" = .ok (mkRuntimeRow "a" dupRecOne) := by
  have h := C10_td_first_match_wins [] [some dupRecTwo] dupRecOne "a"
    (by decide) (by decide) (by intro rr hrr; simp at hrr)
  simpa using h

/-! ### Raw config records for the loaders (topdown_cli.py, topdown_ci.py,
backup topdown_runtime.py) -/

/-- A JSON field that the loaders normalize into a list of strings:
missing, a string (comma-separated), a list of strings, or any other
JSON type. -/
inductive JField where
  | missing
  | str (s : String)
  | list (l : List String)
  | other
deriving DecidableEq, Repr

/-- Python's `s.split(",")` (structural, keeps empty segments). -/
def splitCommaGo : List Char → List Char → List String
  | [], cur => [⟨cur.reverse⟩]
  | c :: rest, cur =>
      if c = ',' then (⟨cur.reverse⟩ : String) :: splitCommaGo rest []
      else splitCommaGo rest (c :: cur)

/-- Python's `s.split(",")`. -/
def splitComma (s : String) : List String := splitCommaGo s.data []

/-- The loaders' normalization: a string splits on commas (entries
stripped, empties dropped), a list passes through, anything else
becomes the empty list. -/
def normField : JField → List String
  | .missing => []
  | .str s => ((splitComma s).map stripStr).filter (fun d => d ≠ "")
  | .list l => l
  | .other => []

/-- A raw JSON row record as the loaders see it (`none` field: missing
or not of the accepted type). -/
structure CliRaw where
  id : Option String := none
  locked : Option Bool := none
  name : Option String := none
  args : Option String := none
  expr : Option String := none
  scope : Option String := none
  depends : JField := .missing
  sources : JField := .missing
deriving DecidableEq, Repr

/-- The dataclass `ConfigRow` of python/topdown_cli.py. -/
structure ConfigRow where
  id : String
  locked : Bool
  name : String
  args : String
  expr : String
  scope : Option String
  depends : List String
  sources : List String
deriving DecidableEq, Repr

/-- The `ConfigRow(...)` construction in `TopDownCLI.load`. -/
def mkConfigRow (rid : String) (r : CliRaw) : ConfigRow :=
  { id := rid
    locked := boolOrFalse r.locked
    name := (r.name).getD ""
    args := (r.args).getD ""
    expr := (r.expr).getD ""
    scope := r.scope
    depends := normField r.depends
    sources := normField r.sources }

/-- The row loop of `TopDownCLI.load`: records that are not dicts or
have a missing/empty id are skipped; `self.rows[row.id] = row` follows
Python-dict semantics (a later record with the same id overwrites the
earlier one's value). -/
def cliLoadGo (raws : List (Option CliRaw)) (acc : Dict ConfigRow) :
    Dict ConfigRow :=
  match raws with
  | [] => acc
  | none :: rest => cliLoadGo rest acc
  | some r :: rest =>
      match r.id with
      | none => cliLoadGo rest acc
      | some rid =>
          if rid = "" then cliLoadGo rest acc
          else cliLoadGo rest (dictInsert acc rid (mkConfigRow rid r))

/-- `TopDownCLI.load`: the resulting `self.rows` mapping. -/
def cliLoadRows (raws : List (Option CliRaw)) : Dict ConfigRow :=
  cliLoadGo raws []

/-- `self.graph` of `TopDownCLI`: for each loaded row, edges to those
declared dependencies that resolve to a loaded row. -/
def cliGraph (rows : Dict ConfigRow) (n : String) : List String :=
  match dictFind rows n with
  | some r => r.depends.filter (fun d => (dictFind rows d).isSome)
  | none => []

/-- `self.reverse_graph` of `TopDownCLI`: dependents of `n`, present
only when `n` itself resolves to a loaded row. -/
def cliReverse (rows : Dict ConfigRow) (n : String) : List String :=
  if (dictFind rows n).isSome then
    rows.filterMap (fun kv => if n ∈ kv.2.depends then some kv.1 else none)
  else []

/-! ### Claim C6: duplicate-id reporting (`TopDownCLI.cmd_validate`) -/

/-- The duplicate-id check of `cmd_validate`: scan `self.rows.values()`
keeping a `seen_ids` set, flagging an id already seen. Returns the
flagged ids. -/
def duplicateIdFlags : List ConfigRow → List String → List String
  | [], _ => []
  | r :: rest, seen =>
      if r.id ∈ seen then r.id :: duplicateIdFlags rest (r.id :: seen)
      else duplicateIdFlags rest (r.id :: seen)

/-- `DUPLICATE_ID` issues produced by `cmd_validate` on a loaded store. -/
def duplicateIdIssues (rows : Dict ConfigRow) : List String :=
  duplicateIdFlags (dictValues rows) []

theorem dictValues_map_eq_keys {α : Type} (d : Dict α) (f : α → String)
    (h : ∀ kv ∈ d, f kv.2 = kv.1) : (dictValues d).map f = dictKeys d := by
  induction d with
  | nil => rfl
  | cons hd rest ih =>
      obtain ⟨k, v⟩ := hd
      simp only [dictValues, dictKeys, List.map_cons]
      rw [h (k, v) (List.mem_cons_self _ _),
        ih (fun kv hkv => h kv (List.mem_cons_of_mem _ hkv))]

theorem duplicateIdFlags_nil :
    ∀ (l : List ConfigRow) (seen : List String),
      (l.map ConfigRow.id).Nodup → (∀ r ∈ l, r.id ∉ seen) →
      duplicateIdFlags l seen = [] := by
  intro l
  induction l with
  | nil => intro seen _ _; rfl
  | cons r rest ih =>
      intro seen hnd hdisj
      simp only [List.map_cons, List.nodup_cons] at hnd
      have hr : r.id ∉ seen := hdisj r (List.mem_cons_self _ _)
      simp only [duplicateIdFlags, if_neg hr]
      refine ih (r.id :: seen) hnd.2 ?_
      intro r₂ hr₂
      simp only [List.mem_cons]
      rintro (h | h)
      · exact hnd.1 (h ▸ List.mem_map_of_mem ConfigRow.id hr₂)
      · exact hdisj r₂ (List.mem_cons_of_mem _ hr₂) h

theorem mem_dictInsert {α : Type} (d : Dict α) (k : String) (v : α)
    (kv : String × α) :
    kv ∈ dictInsert d k v → kv = (k, v) ∨ kv ∈ d := by
  induction d with
  | nil => intro hkv; simpa [dictInsert] using hkv
  | cons hd rest ih =>
      intro hkv
      obtain ⟨k₁, v₁⟩ := hd
      by_cases h : k₁ = k
      · subst h
        rw [dictInsert, if_pos rfl] at hkv
        rcases List.mem_cons.mp hkv with h₂ | h₂
        · exact Or.inl h₂
        · exact Or.inr (List.mem_cons_of_mem _ h₂)
      · rw [dictInsert, if_neg h] at hkv
        rcases List.mem_cons.mp hkv with h₂ | h₂
        · exact Or.inr (h₂ ▸ List.mem_cons_self _ _)
        · rcases ih h₂ with h₃ | h₃
          · exact Or.inl h₃
          · exact Or.inr (List.mem_cons_of_mem _ h₃)

theorem cliLoadGo_stores_id (raws : List (Option CliRaw)) :
    ∀ (acc : Dict ConfigRow), (∀ kv ∈ acc, (kv.2).id = kv.1) →
    ∀ kv ∈ cliLoadGo raws acc, (kv.2).id = kv.1 := by
  induction raws with
  | nil => intro acc hacc; exact hacc
  | cons hd rest ih =>
      intro acc hacc
      cases hd with
      | none => exact ih acc hacc
      | some r =>
          cases hid : r.id with
          | none => simpa [cliLoadGo, hid] using ih acc hacc
          | some rid =>
              by_cases hempty : rid = ""
              · simpa [cliLoadGo, hid, hempty] using ih acc hacc
              · simp only [cliLoadGo, hid, if_neg hempty]
                refine ih _ ?_
                intro kv hkv
                rcases mem_dictInsert acc rid (mkConfigRow rid r) kv hkv with
                  h | h
                · subst h; rfl
                · exact hacc kv h

theorem cliLoadGo_keys_nodup (raws : List (Option CliRaw)) :
    ∀ (acc : Dict ConfigRow), (dictKeys acc).Nodup →
    (dictKeys (cliLoadGo raws acc)).Nodup := by
  induction raws with
  | nil => intro acc hacc; exact hacc
  | cons hd rest ih =>
      intro acc hacc
      cases hd with
      | none => exact ih acc hacc
      | some r =>
          cases hid : r.id with
          | none => simpa [cliLoadGo, hid] using ih acc hacc
          | some rid =>
              by_cases hempty : rid = ""
              · simpa [cliLoadGo, hid, hempty] using ih acc hacc
              · simp only [cliLoadGo, hid, if_neg hempty]
                exact ih _ (dictKeys_insert_nodup acc rid _ hacc)

/-- The concrete duplicate-id input: two records with id `a`. -/
def dupRawOne : CliRaw := { id := some "a", name := some "one" }

/-- Second record with the same id `a` but different content. -/
def dupRawTwo : CliRaw := { id := some "a", name := some "two" }

/-- C6: contrary to the claim, duplicate ids in the raw input are never
flagged — `cmd_validate` scans `self.rows.values()`, but `load` has
already collapsed duplicates into the dict keyed by id, so the seen-set
check can never fire on any input — and the Row Store keeps the row
built from the LAST occurrence, not the first: with two records of id
`a` (names `one` and `two`), validation reports no `DUPLICATE_ID` issue
and the store holds the row named `two`. -/
theorem C6_duplicate_id_check_dead :
    (∀ raws : List (Option CliRaw), duplicateIdIssues (cliLoadRows raws) = []) ∧
    duplicateIdIssues (cliLoadRows [some dupRawOne, some dupRawTwo]) = [] ∧
    dictFind (cliLoadRows [some dupRawOne, some dupRawTwo]) "a" =
      some (mkConfigRow "a" dupRawTwo) := by
  have hmain : ∀ raws : List (Option CliRaw),
      duplicateIdIssues (cliLoadRows raws) = [] := by
    intro raws
    unfold duplicateIdIssues
    have hids : ∀ kv ∈ cliLoadRows raws, (kv.2).id = kv.1 :=
      cliLoadGo_stores_id raws [] (by intro kv hkv; simp at hkv)
    have hkeys : (dictKeys (cliLoadRows raws)).Nodup :=
      cliLoadGo_keys_nodup raws [] (by simp [dictKeys])
    have hmap : ((dictValues (cliLoadRows raws)).map ConfigRow.id).Nodup := by
      rw [dictValues_map_eq_keys _ _ hids]
      exact hkeys
    exact duplicateIdFlags_nil _ [] hmap (by intro r _ h; simp at h)
  exact ⟨hmain, hmain _, by decide⟩

/-! ### The backup runtime `TopDownRow` (with depends/sources) and the
build-system loader (examples/buildsystem/build.py `_load_config`) -/

/-- The frozen dataclass `TopDownRow` of the backup topdown_runtime.py,
which carries `depends` and `sources`. -/
structure BRow where
  id : String
  locked : Bool
  name : String
  args : String
  expr : String
  scope : Option String
  depends : List String
  sources : List String
deriving DecidableEq, Repr

/-- The `TopDownRow(...)` construction inside the backup `td`. -/
def mkBRow (wanted : String) (r : CliRaw) : BRow :=
  { id := wanted
    locked := boolOrFalse r.locked
    name := strOrEmpty r.name
    args := strOrEmpty r.args
    expr := strOrEmpty r.expr
    scope := r.scope
    depends := normField r.depends
    sources := normField r.sources }

/-- The scan loop of the backup `td`: first record matching `wanted`. -/
def tdB (rows : List CliRaw) (wanted : String) : Option BRow :=
  match rows with
  | [] => none
  | r :: rest =>
      if r.id = some wanted then some (mkBRow wanted r) else tdB rest wanted

/-- The main row loop of `BuildSystem._load_config`: every config row
with a non-empty id is resolved through `td` and stored; the dependency
graph gets an edge for EVERY declared dependency, with no check that the
dependency id resolves to a loaded row. -/
def buildLoadGo (allRows : List CliRaw) (raws : List CliRaw)
    (acc : Dict BRow) : Dict BRow :=
  match raws with
  | [] => acc
  | r :: rest =>
      match r.id with
      | none => buildLoadGo allRows rest acc
      | some rid =>
          if rid = "" then buildLoadGo allRows rest acc
          else
            match tdB allRows rid with
            | some t => buildLoadGo allRows rest (dictInsert acc rid t)
            | none => buildLoadGo allRows rest acc

/-- `BuildSystem.targets` after `_load_config` (main loop; the earlier
profile pre-load inserts the same `td` value for the profile id and adds
no edges, so it does not change the final mapping). -/
def buildLoadTargets (rows : List CliRaw) : Dict BRow :=
  buildLoadGo rows rows []

/-- `BuildSystem.graph`: `graph[row_id]` accumulates all of the row's
declared dependencies (a `defaultdict(set)`, so unknown keys read as
empty). -/
def buildGraph (targets : Dict BRow) (n : String) : List String :=
  match dictFind targets n with
  | some t => t.depends
  | none => []

/-- `BuildSystem.reverse_graph`: `reverse_graph[dep]` holds every loaded
row that declares `dep`, even when `dep` is not a loaded row itself. -/
def buildReverse (targets : Dict BRow) (n : String) : List String :=
  targets.filterMap (fun kv => if n ∈ kv.2.depends then some kv.1 else none)

theorem dictFind_isSome_of_mem {α : Type} (d : Dict α) (kv : String × α) :
    kv ∈ d → (dictFind d kv.1).isSome := by
  induction d with
  | nil => intro h; simp at h
  | cons hd rest ih =>
      intro h
      obtain ⟨k₂, v₂⟩ := hd
      by_cases hk : k₂ = kv.1
      · simp [dictFind, hk]
      · rcases List.mem_cons.mp h with h₂ | h₂
        · exact absurd (congrArg Prod.fst h₂.symm) hk
        · simpa [dictFind, hk] using ih h₂

/-! ### Claim C7: graph edges resolve to existing rows -/

/-- C7, amended: in the CLI loader, an edge is added only when the
referenced dependency id is present in the row mapping, so every
endpoint of every forward or reverse edge resolves to an existing row,
while a row with a dangling `depends` entry still loads. (The
build-system loader violates the original claim; see the
counterexample.) -/
theorem C7_cli_graph_edges_resolve (raws : List (Option CliRaw))
    (n d : String) :
    (d ∈ cliGraph (cliLoadRows raws) n →
      (dictFind (cliLoadRows raws) n).isSome ∧
      (dictFind (cliLoadRows raws) d).isSome) ∧
    (d ∈ cliReverse (cliLoadRows raws) n →
      (dictFind (cliLoadRows raws) n).isSome ∧
      (dictFind (cliLoadRows raws) d).isSome) := by
  constructor
  · intro hmem
    unfold cliGraph at hmem
    cases hfind : dictFind (cliLoadRows raws) n with
    | none => rw [hfind] at hmem; simp at hmem
    | some r =>
        rw [hfind] at hmem
        simp only [List.mem_filter, decide_eq_true_eq] at hmem
        exact ⟨by simp [hfind], hmem.2⟩
  · intro hmem
    unfold cliReverse at hmem
    by_cases hn : (dictFind (cliLoadRows raws) n).isSome
    · refine ⟨hn, ?_⟩
      rw [if_pos hn] at hmem
      simp only [List.mem_filterMap] at hmem
      obtain ⟨kv, hkv, hval⟩ := hmem
      have hd : kv.1 = d := by
        by_cases hdep : n ∈ kv.2.depends
        · rw [if_pos hdep] at hval; injection hval
        · rw [if_neg hdep] at hval; cases hval
      subst hd
      exact dictFind_isSome_of_mem _ kv hkv
    · rw [if_neg hn] at hmem
      simp at hmem

/-- The raw rows of the C7 witness scenario: `b` depends on `a`. -/
def c7Raws : List (Option CliRaw) :=
  [some { id := some "a" }, some { id := some "b", depends := .list ["a"] }]

/-- Witness for C7: in the loaded two-row config where `b` depends on
`a`, the forward edge `b → a` has both endpoints in the store. -/
theorem C7_cli_graph_edges_resolve_witness :
    (dictFind (cliLoadRows c7Raws) "b").isSome ∧
    (dictFind (cliLoadRows c7Raws) "a").isSome :=
  (C7_cli_graph_edges_resolve c7Raws "b" "a").1 (by decide)

/-- The raw rows of the C7 counterexample: `a` depends on `ghost`,
which is not a row. -/
def ghostRaws : List CliRaw :=
  [{ id := some "a", depends := .list ["ghost"] }]

/-- Counterexample for C7 as originally stated: the build-system loader
(`BuildSystem._load_config`) records the forward edge `a → ghost` and
the reverse edge `ghost → a` although `ghost` resolves to no row. -/
theorem C7_build_loader_edge_to_unknown :
    "ghost" ∈ buildGraph (buildLoadTargets ghostRaws) "a" ∧
    "a" ∈ buildReverse (buildLoadTargets ghostRaws) "ghost" ∧
    dictFind (buildLoadTargets ghostRaws) "ghost" = none := by
  refine ⟨by decide, by decide, by decide⟩

/-! ### Glob matching (Python `fnmatch.fnmatch` on POSIX) and the CI
impact mapper (python/topdown_ci.py) -/

/-- One compiled token of a glob pattern. -/
inductive GlobTok where
  | star
  | anyChar
  | cls (neg : Bool) (body : List Char)
  | lit (c : Char)
deriving DecidableEq, Repr

/-- Split a character-class body at the first closing bracket. -/
def findClose : List Char → Option (List Char × List Char)
  | [] => none
  | c :: rest =>
      if c = ']' then some ([], rest)
      else (findClose rest).map (fun p => (c :: p.1, p.2))

/-- Parse the inside of `[...]`: an optional leading `!`, a `]` directly
after it is literal, then everything up to the next `]` (no closing
bracket means the `[` was literal). -/
def splitClass : List Char → Option (Bool × List Char × List Char)
  | '!' :: ']' :: rest => (findClose rest).map (fun p => (true, ']' :: p.1, p.2))
  | '!' :: rest => (findClose rest).map (fun p => (true, p.1, p.2))
  | ']' :: rest => (findClose rest).map (fun p => (false, ']' :: p.1, p.2))
  | rest => (findClose rest).map (fun p => (false, p.1, p.2))

/-- `[...]` body matching with ranges; a trailing `-` is literal. -/
def classMatchBody : List Char → Char → Bool
  | [], _ => false
  | a :: '-' :: b :: rest, c =>
      (a.toNat ≤ c.toNat && c.toNat ≤ b.toNat) || classMatchBody rest c
  | a :: rest, c => (a = c) || classMatchBody rest c

/-- Compile a glob pattern to tokens (fuel-indexed so that concrete
instances reduce; `globTokens` supplies sufficient fuel). -/
def tokenizeF : Nat → List Char → List GlobTok
  | 0, _ => []
  | _ + 1, [] => []
  | fuel + 1, '*' :: rest => .star :: tokenizeF fuel rest
  | fuel + 1, '?' :: rest => .anyChar :: tokenizeF fuel rest
  | fuel + 1, '[' :: rest =>
      match splitClass rest with
      | some (neg, body, rest₂) => .cls neg body :: tokenizeF fuel rest₂
      | none => .lit '[' :: tokenizeF fuel rest
  | fuel + 1, c :: rest => .lit c :: tokenizeF fuel rest

/-- Token list of a glob pattern. -/
def globTokens (pat : String) : List GlobTok :=
  tokenizeF (pat.data.length + 1) pat.data

/-- Match tokens against a name; `*` may absorb any characters,
including `/` (Python `fnmatch` semantics). Fuel-indexed; each step
consumes a token or a character, so `fnmatchB` supplies enough fuel. -/
def tokMatchF : Nat → List GlobTok → List Char → Bool
  | 0, _, _ => false
  | _ + 1, [], [] => true
  | _ + 1, [], _ :: _ => false
  | fuel + 1, .star :: ps, s =>
      tokMatchF fuel ps s ||
        (match s with
         | [] => false
         | _ :: s₂ => tokMatchF fuel (.star :: ps) s₂)
  | _ + 1, .anyChar :: _, [] => false
  | fuel + 1, .anyChar :: ps, _ :: s => tokMatchF fuel ps s
  | _ + 1, .cls _ _ :: _, [] => false
  | fuel + 1, .cls neg body :: ps, c :: s =>
      (if neg then !(classMatchBody body c) else classMatchBody body c) &&
        tokMatchF fuel ps s
  | _ + 1, .lit _ :: _, [] => false
  | fuel + 1, .lit a :: ps, c :: s => (a = c) && tokMatchF fuel ps s

/-- `fnmatch.fnmatch(name, pat)` on a POSIX system. -/
def fnmatchB (name pat : String) : Bool :=
  let toks := globTokens pat
  tokMatchF (toks.length + name.data.length + 1) toks name.data

/-- `suffix in s` as `s.endswith(suffix)` (structural). -/
def endsWithStr (suf s : String) : Bool :=
  decide (s.data.reverse.take suf.data.length = suf.data.reverse)

/-- `s.startswith(pre)` (structural). -/
def startsWithStr (pre s : String) : Bool :=
  decide (s.data.take pre.data.length = pre.data)

/-- Python's `args.split()`: split on whitespace runs, no empties. -/
def splitWSGo : List Char → List Char → List String
  | [], cur => if cur.isEmpty then [] else [⟨cur.reverse⟩]
  | c :: rest, cur =>
      if c.isWhitespace then
        if cur.isEmpty then splitWSGo rest []
        else (⟨cur.reverse⟩ : String) :: splitWSGo rest []
      else splitWSGo rest (c :: cur)

/-- Python's `args.split()`. -/
def splitWS (s : String) : List String := splitWSGo s.data []

/-- `TopDownCI._extract_file_patterns`: args tokens that contain a
wildcard or path separator, or end with a known source suffix. -/
def looksLikeFilePattern (part : String) : Bool :=
  part.data.contains '*' || part.data.contains '/' ||
    endsWithStr ".c" part || endsWithStr ".h" part ||
    endsWithStr ".py" part || endsWithStr ".ts" part ||
    endsWithStr ".js" part || endsWithStr ".go" part ||
    endsWithStr ".rs" part

/-- The pattern list extracted from one row's `args`. -/
def extractFilePatterns (args : String) : List String :=
  (splitWS args).filter looksLikeFilePattern

/-- `filepath.replace("\\", "/")`. -/
def normalizePath (p : String) : String :=
  ⟨p.data.map (fun c => if c = '\\' then '/' else c)⟩

/-- `pattern.rsplit("/", 1)[0]`: everything before the last slash (the
whole string when there is no slash). -/
def dirPrefixOf (p : String) : String :=
  if p.data.contains '/' then
    ⟨(((p.data.reverse.dropWhile (fun c => c ≠ '/')).drop 1)).reverse⟩
  else p

/-- The directory-prefix fallback of `map_files_to_rows`: only patterns
ending in `/*`, `/*.c` or `/*.py` get it, and the path must lie under
the pattern's directory. -/
def dirPrefixHit (norm pattern : String) : Bool :=
  (endsWithStr "/*" pattern || endsWithStr "/*.c" pattern ||
      endsWithStr "/*.py" pattern) &&
    startsWithStr (dirPrefixOf pattern ++ "/") norm

/-- The inner pattern loop of `map_files_to_rows`: scan the row's
patterns in order, stopping at the first glob or directory-prefix hit. -/
def rowMatched (norm : String) : List String → Bool
  | [] => false
  | p :: rest =>
      if fnmatchB norm p then true
      else if dirPrefixHit norm p then true
      else rowMatched norm rest

/-- The per-file row scan of `map_files_to_rows` (dict order). -/
def rowsForFile (filePatterns : Dict (List String)) (norm : String) :
    List String :=
  filePatterns.filterMap
    (fun kv => if rowMatched norm kv.2 then some kv.1 else none)

/-- `map_files_to_rows`: map each changed file to the rows whose
patterns match it; files with no match do not appear. -/
def mapFilesToRows (filePatterns : Dict (List String))
    (changed : List String) : Dict (List String) :=
  mapFilesGo changed []
where
  mapFilesGo : List String → Dict (List String) → Dict (List String)
    | [], acc => acc
    | f :: rest, acc =>
        let matched := rowsForFile filePatterns (normalizePath f)
        if matched.isEmpty then mapFilesGo rest acc
        else mapFilesGo rest
          (dictInsert acc f ((dictFind acc f).getD [] ++ matched))

theorem rowMatched_iff (norm : String) :
    ∀ pats : List String, rowMatched norm pats = true ↔
      ∃ p ∈ pats, fnmatchB norm p = true ∨ dirPrefixHit norm p = true := by
  intro pats
  induction pats with
  | nil => simp [rowMatched]
  | cons p rest ih =>
      by_cases hg : fnmatchB norm p = true
      · simp only [rowMatched, if_pos hg]
        exact ⟨fun _ => ⟨p, List.mem_cons_self _ _, Or.inl hg⟩,
          fun _ => trivial⟩
      · by_cases hc : dirPrefixHit norm p = true
        · simp only [rowMatched, if_neg hg, if_pos hc]
          exact ⟨fun _ => ⟨p, List.mem_cons_self _ _, Or.inr hc⟩,
            fun _ => trivial⟩
        · simp only [rowMatched, if_neg hg, if_neg hc, ih]
          constructor
          · rintro ⟨q, hq, hmatch⟩
            exact ⟨q, List.mem_cons_of_mem _ hq, hmatch⟩
          · rintro ⟨q, hq, hmatch⟩
            rcases List.mem_cons.mp hq with h | h
            · subst h
              rcases hmatch with h | h
              · exact absurd h hg
              · exact absurd h hc
            · exact ⟨q, h, hmatch⟩

theorem mem_dictKeys_of_mem {α : Type} (d : Dict α) (kv : String × α) :
    kv ∈ d → kv.1 ∈ dictKeys d := by
  induction d with
  | nil => intro h; simp at h
  | cons hd rest ih =>
      intro h
      obtain ⟨k₁, v₁⟩ := hd
      rcases List.mem_cons.mp h with h₂ | h₂
      · simp [dictKeys, h₂]
      · simp only [dictKeys, List.mem_cons]
        exact Or.inr (ih h₂)

theorem dictFind_eq_some_iff_mem {α : Type} (d : Dict α) (k : String) (v : α)
    (hnodup : (dictKeys d).Nodup) :
    dictFind d k = some v ↔ (k, v) ∈ d := by
  induction d with
  | nil => simp [dictFind]
  | cons hd rest ih =>
      obtain ⟨k₁, v₁⟩ := hd
      simp only [dictKeys, List.nodup_cons] at hnodup
      by_cases hk : k₁ = k
      · subst hk
        rw [dictFind, if_pos rfl]
        simp only [List.mem_cons, Option.some.injEq]
        constructor
        · intro h; exact Or.inl (by rw [h])
        · rintro (h | h)
          · injection h with h₁ h₂; exact h₂.symm
          · exact absurd (mem_dictKeys_of_mem rest (k₁, v) h) hnodup.1
      · rw [dictFind, if_neg hk]
        rw [ih hnodup.2]
        simp only [List.mem_cons]
        constructor
        · exact fun h => Or.inr h
        · rintro (h | h)
          · injection h with h₁ h₂; exact absurd h₁.symm hk
          · exact h

theorem mem_rowsForFile (fp : Dict (List String)) (norm row : String)
    (hnodup : (dictKeys fp).Nodup) :
    row ∈ rowsForFile fp norm ↔
      ∃ pats, dictFind fp row = some pats ∧ rowMatched norm pats = true := by
  unfold rowsForFile
  rw [List.mem_filterMap]
  constructor
  · rintro ⟨kv, hkv, hval⟩
    by_cases hm : rowMatched norm kv.2 = true
    · rw [if_pos hm] at hval
      injection hval with hval
      subst hval
      exact ⟨kv.2, (dictFind_eq_some_iff_mem fp kv.1 kv.2 hnodup).mpr hkv, hm⟩
    · rw [if_neg hm] at hval; cases hval
  · rintro ⟨pats, hfind, hm⟩
    exact ⟨(row, pats),
      (dictFind_eq_some_iff_mem fp row pats hnodup).mp hfind, by simp [hm]⟩

theorem mapFilesGo_mem (fp : Dict (List String)) :
    ∀ (files : List String) (acc : Dict (List String)) (f row : String),
      row ∈ (dictFind (mapFilesToRows.mapFilesGo fp files acc) f).getD [] ↔
        row ∈ (dictFind acc f).getD [] ∨
          (f ∈ files ∧ row ∈ rowsForFile fp (normalizePath f)) := by
  intro files
  induction files with
  | nil => intro acc f row; simp [mapFilesToRows.mapFilesGo]
  | cons f₂ rest ih =>
      intro acc f row
      by_cases hmt : (rowsForFile fp (normalizePath f₂)).isEmpty
      · have hemp : rowsForFile fp (normalizePath f₂) = [] :=
          List.isEmpty_iff.mp hmt
        simp only [mapFilesToRows.mapFilesGo, if_pos hmt, ih, List.mem_cons]
        by_cases hf : f = f₂
        · subst hf
          rw [hemp]
          simp
        · tauto
      · simp only [mapFilesToRows.mapFilesGo, if_neg hmt, ih, List.mem_cons]
        by_cases hf : f = f₂
        · subst hf
          rw [dictFind_insert_self]
          simp only [Option.getD_some, List.mem_append]
          tauto
        · rw [dictFind_insert_other _ _ _ _ hf]
          tauto

/-! ### Claim C9: impact-mapper matching rule -/

/-- C9, amended: a changed file path is mapped to a row by
`map_files_to_rows` if and only if some pattern of that row matches the
normalized path under glob (`fnmatch`) semantics, or ends in one of the
wildcard suffixes `/*`, `/*.c`, `/*.py` with the normalized path lying
under the pattern's directory prefix; each matched row id is listed for
the file. A row's patterns are the whitespace-split `args` tokens that
contain a wildcard or a path separator or end in a known source-file
suffix. -/
theorem C9_impact_mapper_matching (fp : Dict (List String))
    (changed : List String) (f row : String)
    (hnodup : (dictKeys fp).Nodup) :
    (row ∈ (dictFind (mapFilesToRows fp changed) f).getD [] ↔
      f ∈ changed ∧ ∃ pats, dictFind fp row = some pats ∧
        ∃ p ∈ pats, fnmatchB (normalizePath f) p = true ∨
          dirPrefixHit (normalizePath f) p = true) ∧
    (∀ args p, p ∈ extractFilePatterns args ↔
      p ∈ splitWS args ∧ looksLikeFilePattern p = true) := by
  constructor
  · unfold mapFilesToRows
    rw [mapFilesGo_mem fp changed [] f row]
    simp only [dictFind, Option.getD_none, List.not_mem_nil, false_or]
    rw [mem_rowsForFile fp _ row hnodup]
    constructor
    · rintro ⟨hf, pats, hfind, hm⟩
      exact ⟨hf, pats, hfind, (rowMatched_iff _ pats).mp hm⟩
    · rintro ⟨hf, pats, hfind, hm⟩
      exact ⟨hf, pats, hfind, (rowMatched_iff _ pats).mpr hm⟩
  · intro args p
    unfold extractFilePatterns
    rw [List.mem_filter]

/-- Pattern table of the C9 witness: row `r` watches `src/*.c`. -/
def c9Fp : Dict (List String) := [("r", ["src/*.c"])]

/-- Witness for C9: `src/a.c` glob-matches `src/*.c`, so the file is
mapped to row `r`. -/
theorem C9_impact_mapper_matching_witness :
    "r" ∈ (dictFind (mapFilesToRows c9Fp ["src/a.c"]) "src/a.c").getD [] :=
  (C9_impact_mapper_matching c9Fp ["src/a.c"] "src/a.c" "r" (by decide)).1.mpr
    ⟨by decide, ["src/*.c"], by decide, "src/*.c", by decide,
      Or.inl (by decide)⟩

/-- Counterexample for C9 as originally stated: `src/*.go` ends in a
wildcard suffix naming the directory prefix `src`, and
`src/sub/a.rs` falls under that directory, yet the path is not mapped —
the directory-prefix fallback applies only to patterns ending in `/*`,
`/*.c` or `/*.py`. -/
theorem C9_wildcard_suffix_not_mapped :
    ("src/*.go" : String) = "src" ++ "/*.go" ∧
    startsWithStr ("src" ++ "/") (normalizePath "src/sub/a.rs") = true ∧
    dictFind (mapFilesToRows [("r", ["src/*.go"])] ["src/sub/a.rs"])
      "src/sub/a.rs" = none := by
  refine ⟨by decide, by decide, by decide⟩

/-! ### Sorting (Python `sorted` on strings) -/

/-- Code-point lexicographic comparison (Python string `<=`). -/
def lexLe : List Char → List Char → Bool
  | [], _ => true
  | _ :: _, [] => false
  | a :: as, b :: bs =>
      if a.toNat < b.toNat then true
      else if a.toNat = b.toNat then lexLe as bs
      else false

/-- String comparison used by `sorted`. -/
def strLe (a b : String) : Bool := lexLe a.data b.data

/-- Insertion step of the sort. -/
def insertSorted (x : String) : List String → List String
  | [] => [x]
  | y :: rest => if strLe x y then x :: y :: rest else y :: insertSorted x rest

/-- Python's `sorted` on a list of strings (insertion sort; the claims
only use that the result is a permutation). -/
def sortStrings : List String → List String
  | [] => []
  | x :: rest => insertSorted x (sortStrings rest)

theorem insertSorted_perm (x : String) (l : List String) :
    (insertSorted x l).Perm (x :: l) := by
  induction l with
  | nil => simp [insertSorted]
  | cons y rest ih =>
      by_cases h : strLe x y = true
      · simp [insertSorted, h]
      · simp only [insertSorted]
        rw [if_neg (by simpa using h)]
        exact (ih.cons y).trans (List.Perm.swap x y rest)

theorem sortStrings_perm (l : List String) : (sortStrings l).Perm l := by
  induction l with
  | nil => simp [sortStrings]
  | cons x rest ih =>
      exact (insertSorted_perm x (sortStrings rest)).trans (ih.cons x)

/-! ### Transitive dependencies (`BuildSystem.get_transitive_deps`) -/

/-- The worklist loop of `get_transitive_deps` (fuel-indexed so concrete
instances reduce; each step pops one queue entry). -/
def transDepsF (g : String → List String) :
    Nat → List String → List String → List String
  | 0, _, deps => deps
  | _ + 1, [], deps => deps
  | fuel + 1, dep :: rest, deps =>
      if deps.contains dep then transDepsF g fuel rest deps
      else transDepsF g fuel (rest ++ g dep) (deps ++ [dep])

/-- Total number of declared dependency entries: a bound on how many
queue entries the worklist can ever create. -/
def totalDeps (targets : Dict BRow) : Nat :=
  (targets.map (fun kv => kv.2.depends.length)).sum

/-- `BuildSystem.get_transitive_deps`. -/
def getTransitiveDeps (targets : Dict BRow) (t : String) : List String :=
  let g := buildGraph targets
  transDepsF g (totalDeps targets + (g t).length + 1) (g t) []

/-! ### Leveled topological order (`BuildSystem.get_build_order`) -/

/-- Membership test for the build-system scope whitelist `SCOPES`
(which includes `None`). -/
def scopeBuildable : Option String → Bool
  | none => true
  | some s =>
      s = "library" || s = "binary" || s = "test" || s = "package" ||
        s = "deploy" || s = "profile"

/-- The induced node set of `get_build_order`: the requested targets
plus their transitive dependencies, restricted to loaded rows with a
whitelisted scope (deduplicated, as the Python code works on sets). -/
def buildableList (targets : Dict BRow) (targetList : List String) :
    List String :=
  (targetList ++ targetList.flatMap (getTransitiveDeps targets)).dedup.filter
    (fun t => match dictFind targets t with
      | some row => scopeBuildable row.scope
      | none => false)

/-- One Kahn round and recursion: extract every node of `remaining`
whose in-degree within `remaining` is zero — since each processed node
decrements its dependents' counters, `in_degree[n]` always equals the
number of `n`'s (distinct) dependencies still in `remaining` — sort it
as a level, and drop it from `remaining`; an empty level (a cycle) stops
the recursion early. Fuel-indexed; one level per step, so
`remaining.length` steps suffice. -/
def kahnLevelsF (g : String → List String) :
    Nat → List String → List (List String)
  | 0, _ => []
  | fuel + 1, remaining =>
      if remaining.isEmpty then []
      else
        let level := remaining.filter
          (fun n => (g n).all (fun d => !(remaining.contains d)))
        if level.isEmpty then []
        else
          sortStrings level ::
            kahnLevelsF g fuel
              (remaining.filter (fun n => !(level.contains n)))

/-- `BuildSystem.get_build_order`. -/
def getBuildOrder (targets : Dict BRow) (targetList : List String) :
    List (List String) :=
  let buildable := buildableList targets targetList
  kahnLevelsF (buildGraph targets) buildable.length buildable

/-- Acyclicity of an adjacency relation on a node set, witnessed by a
rank function that strictly decreases along dependency edges. -/
abbrev RankAcyclicOn (g : String → List String) (s : List String)
    (rank : String → Nat) : Prop :=
  ∀ n ∈ s, ∀ d ∈ g n, d ∈ s → rank d < rank n

theorem listMinExists (rank : String → Nat) :
    ∀ l : List String, l ≠ [] → ∃ n ∈ l, ∀ m ∈ l, rank n ≤ rank m := by
  intro l
  induction l with
  | nil => intro h; exact absurd rfl h
  | cons x rest ih =>
      intro _
      by_cases hrest : rest = []
      · subst hrest
        refine ⟨x, List.mem_cons_self _ _, ?_⟩
        intro m hm
        rcases List.mem_cons.mp hm with h | h
        · rw [h]
        · cases h
      · obtain ⟨n, hn, hmin⟩ := ih hrest
        by_cases hcmp : rank x ≤ rank n
        · refine ⟨x, List.mem_cons_self _ _, ?_⟩
          intro m hm
          rcases List.mem_cons.mp hm with h | h
          · rw [h]
          · exact le_trans hcmp (hmin m h)
        · refine ⟨n, List.mem_cons_of_mem _ hn, ?_⟩
          intro m hm
          rcases List.mem_cons.mp hm with h | h
          · rw [h]; omega
          · exact hmin m h

theorem filter_length_lt (p : String → Bool) :
    ∀ (l : List String) (x : String), x ∈ l → p x = false →
      (l.filter p).length < l.length := by
  intro l
  induction l with
  | nil => intro x h; cases h
  | cons y rest ih =>
      intro x hx hpx
      rcases List.mem_cons.mp hx with h | h
      · subst h
        simp only [List.filter, hpx]
        have := List.length_filter_le p rest
        simp only [List.length_cons]
        omega
      · by_cases hpy : p y = true
        · simp only [List.filter, hpy, List.length_cons]
          have := ih x h hpx
          omega
        · have hpy₂ : p y = false := by simpa using hpy
          simp only [List.filter, hpy₂]
          have := ih x h hpx
          simp only [List.length_cons]
          omega

theorem rankAcyclicOn_mono (g : String → List String) (rank : String → Nat)
    (s t : List String) (hsub : ∀ x ∈ t, x ∈ s)
    (h : RankAcyclicOn g s rank) : RankAcyclicOn g t rank := by
  intro n hn d hd hdt
  exact h n (hsub n hn) d hd (hsub d hdt)

theorem kahn_level_nonempty (g : String → List String) (rank : String → Nat)
    (R : List String) (hR : R ≠ []) (hacyc : RankAcyclicOn g R rank) :
    R.filter (fun n => (g n).all (fun d => !(R.contains d))) ≠ [] := by
  obtain ⟨n, hn, hmin⟩ := listMinExists rank R hR
  have hp : ((g n).all (fun d => !(R.contains d))) = true := by
    rw [List.all_eq_true]
    intro d hd
    by_cases hdR : d ∈ R
    · have := hacyc n hn d hd hdR
      have := hmin d hdR
      omega
    · simpa using hdR
  intro hempty
  have : n ∈ R.filter (fun n => (g n).all (fun d => !(R.contains d))) :=
    List.mem_filter.mpr ⟨hn, hp⟩
  rw [hempty] at this
  cases this

theorem contains_true_iff (l : List String) (x : String) :
    l.contains x = true ↔ x ∈ l := List.elem_iff

theorem contains_false_of_not_mem (l : List String) (x : String)
    (h : x ∉ l) : l.contains x = false := by
  cases hc : l.contains x
  · rfl
  · exact absurd ((contains_true_iff l x).mp hc) h

theorem kahnF_props (g : String → List String) (rank : String → Nat) :
    ∀ (fuel : Nat) (R : List String), R.Nodup →
      RankAcyclicOn g R rank → R.length ≤ fuel →
      ((kahnLevelsF g fuel R).flatten).Perm R ∧
      (∀ pre lvl post, kahnLevelsF g fuel R = pre ++ lvl :: post →
        ∀ n ∈ lvl, ∀ d ∈ g n, d ∈ R →
          ∃ pre₂ l₂ post₂, pre = pre₂ ++ l₂ :: post₂ ∧ d ∈ l₂) := by
  intro fuel
  induction fuel with
  | zero =>
      intro R _ _ hlen
      have hR : R = [] := List.length_eq_zero.mp (Nat.le_zero.mp hlen)
      subst hR
      constructor
      · simp [kahnLevelsF]
      · intro pre lvl post h
        simp only [kahnLevelsF] at h
        exact absurd h (by simp)
  | succ fuel ih =>
      intro R hnodup hacyc hlen
      by_cases hRempty : R.isEmpty
      · have hR : R = [] := List.isEmpty_iff.mp hRempty
        subst hR
        constructor
        · simp [kahnLevelsF]
        · intro pre lvl post h
          rw [kahnLevelsF] at h
          simp at h
      · have hRne : R ≠ [] := by
          intro h; rw [h] at hRempty; exact hRempty rfl
        set p : String → Bool :=
          fun n => (g n).all (fun d => !(R.contains d)) with hp
        set level := R.filter p with hlevel
        have hlvlne : level ≠ [] := kahn_level_nonempty g rank R hRne hacyc
        have hlvlempty : level.isEmpty = false := by
          cases hl : level with
          | nil => exact absurd hl hlvlne
          | cons a b => simp [hl]
        set R₂ := R.filter (fun n => !(level.contains n)) with hR₂
        have hstep : kahnLevelsF g (fuel + 1) R =
            sortStrings level :: kahnLevelsF g fuel R₂ := by
          rw [kahnLevelsF]
          rw [if_neg (by simpa using hRne)]
          simp only [← hlevel, hlvlempty]
          rfl
        have hsubR₂ : ∀ x ∈ R₂, x ∈ R := by
          intro x hx; exact (List.mem_filter.mp hx).1
        have hnodup₂ : R₂.Nodup := hnodup.filter _
        have hacyc₂ : RankAcyclicOn g R₂ rank :=
          rankAcyclicOn_mono g rank R R₂ hsubR₂ hacyc
        have hlen₂ : R₂.length ≤ fuel := by
          obtain ⟨x, hxlvl⟩ := List.exists_mem_of_ne_nil level hlvlne
          have hxR : x ∈ R := (List.mem_filter.mp hxlvl).1
          have hxfail : (!(level.contains x)) = false := by
            rw [(contains_true_iff level x).mpr hxlvl]
            rfl
          have hlt := filter_length_lt (fun n => !(level.contains n)) R x
            hxR hxfail
          rw [← hR₂] at hlt
          omega
        obtain ⟨ihperm, ihlevels⟩ := ih R₂ hnodup₂ hacyc₂ hlen₂
        have hmemlvl : ∀ x ∈ R, (x ∈ level ↔ p x = true) := by
          intro x hx
          constructor
          · intro h; exact (List.mem_filter.mp h).2
          · intro h; exact List.mem_filter.mpr ⟨hx, h⟩
        have hfiltereq : R₂ = R.filter (fun x => !p x) := by
          rw [hR₂]
          apply List.filter_congr
          intro x hx
          have hiff := hmemlvl x hx
          by_cases hxl : x ∈ level
          · rw [(contains_true_iff level x).mpr hxl, hiff.mp hxl]
          · have hpx : p x = false := by
              cases hpc : p x
              · rfl
              · exact absurd (hiff.mpr hpc) hxl
            rw [contains_false_of_not_mem level x hxl, hpx]
        have hR₂alt : ∀ x, x ∈ R₂ ↔ (x ∈ R ∧ ¬ x ∈ level) := by
          intro x
          constructor
          · intro hx
            refine ⟨hsubR₂ x hx, ?_⟩
            intro hxl
            have := (List.mem_filter.mp hx).2
            rw [(contains_true_iff level x).mpr hxl] at this
            cases this
          · rintro ⟨hxR, hxl⟩
            rw [hR₂]
            refine List.mem_filter.mpr ⟨hxR, ?_⟩
            rw [contains_false_of_not_mem level x hxl]
            rfl
        constructor
        · -- the levels cover R exactly (as a multiset)
          rw [hstep]
          rw [List.flatten_cons]
          have h₁ : (sortStrings level ++
              (kahnLevelsF g fuel R₂).flatten).Perm (level ++ R₂) :=
            (sortStrings_perm level).append ihperm
          refine h₁.trans ?_
          rw [hfiltereq, hlevel]
          exact List.filter_append_perm p R
        · -- dependencies in strictly earlier levels
          intro pre lvl post hsplit n hnlvl d hdg hdR
          rw [hstep] at hsplit
          cases pre with
          | nil =>
              simp only [List.nil_append, List.cons.injEq] at hsplit
              obtain ⟨hlvl₂, _⟩ := hsplit
              have hnlevel : n ∈ level :=
                (sortStrings_perm level).subset (hlvl₂ ▸ hnlvl)
              have hpn : p n = true := (List.mem_filter.mp hnlevel).2
              rw [hp] at hpn
              rw [List.all_eq_true] at hpn
              have hbd := hpn d hdg
              have : (R.contains d) = false := by
                cases hc : R.contains d
                · rfl
                · rw [hc] at hbd; cases hbd
              exact absurd ((contains_true_iff R d).mpr hdR)
                (by rw [this]; exact Bool.false_ne_true)
          | cons q pre₂ =>
              simp only [List.cons_append, List.cons.injEq] at hsplit
              obtain ⟨hq, hrest⟩ := hsplit
              by_cases hdlvl : d ∈ level
              · refine ⟨[], sortStrings level, pre₂, by simp [hq], ?_⟩
                exact (sortStrings_perm level).mem_iff.mpr hdlvl
              · have hdR₂ : d ∈ R₂ := (hR₂alt d).mpr ⟨hdR, hdlvl⟩
                obtain ⟨pre₃, l₂, post₃, hpre₃, hdl₂⟩ :=
                  ihlevels pre₂ lvl post hrest n hnlvl d hdg hdR₂
                refine ⟨q :: pre₃, l₂, post₃, ?_, hdl₂⟩
                rw [hpre₃]
                rfl

/-! ### Claim C2: leveled topological order -/

/-- C2: for every acyclic dependency graph and target set, the leveled
topological order of `get_build_order` assigns each node of the induced
subgraph (targets plus ancestor closure, restricted to loaded rows with
a recognized scope) to exactly one level — the concatenation of the
levels is a permutation of the duplicate-free induced node set — and
every dependency of a node that lies in the induced set appears in a
strictly earlier level. -/
theorem C2_leveled_topological_order (targets : Dict BRow)
    (ts : List String) (rank : String → Nat)
    (hacyc : RankAcyclicOn (buildGraph targets)
      (buildableList targets ts) rank) :
    ((getBuildOrder targets ts).flatten).Perm (buildableList targets ts) ∧
    (buildableList targets ts).Nodup ∧
    (∀ pre lvl post, getBuildOrder targets ts = pre ++ lvl :: post →
      ∀ n ∈ lvl, ∀ d ∈ buildGraph targets n,
        d ∈ buildableList targets ts →
          ∃ pre₂ l₂ post₂, pre = pre₂ ++ l₂ :: post₂ ∧ d ∈ l₂) := by
  have hnodup : (buildableList targets ts).Nodup :=
    (List.nodup_dedup _).filter _
  obtain ⟨h₁, h₂⟩ := kahnF_props (buildGraph targets) rank
    (buildableList targets ts).length (buildableList targets ts)
    hnodup hacyc le_rfl
  exact ⟨h₁, hnodup, h₂⟩

/-- Raw rows of the §8 scenario: `root`; `mid1`, `mid2` depending on
`root`; `leaf` depending on both mids. -/
def c2Rows : List CliRaw :=
  [{ id := some "root" },
   { id := some "mid1", depends := .list ["root"] },
   { id := some "mid2", depends := .list ["root"] },
   { id := some "leaf", depends := .list ["mid1", "mid2"] }]

/-- The loaded diamond snapshot. -/
def c2Targets : Dict BRow := buildLoadTargets c2Rows

/-- A rank witnessing the diamond's acyclicity. -/
def c2Rank (n : String) : Nat :=
  if n = "root" then 0 else if n = "leaf" then 2 else 1

/-- Witness for C2: the diamond snapshot is acyclic, the partition
properties hold, and the leveled order for target `leaf` is exactly
`[[root], [mid1, mid2], [leaf]]` as in the spec's scenario. -/
theorem C2_leveled_topological_order_witness :
    (((getBuildOrder c2Targets ["leaf"]).flatten).Perm
        (buildableList c2Targets ["leaf"]) ∧
      (buildableList c2Targets ["leaf"]).Nodup ∧
      (∀ pre lvl post,
        getBuildOrder c2Targets ["leaf"] = pre ++ lvl :: post →
        ∀ n ∈ lvl, ∀ d ∈ buildGraph c2Targets n,
          d ∈ buildableList c2Targets ["leaf"] →
            ∃ pre₂ l₂ post₂, pre = pre₂ ++ l₂ :: post₂ ∧ d ∈ l₂)) ∧
    getBuildOrder c2Targets ["leaf"] =
      [["root"], ["mid1", "mid2"], ["leaf"]] :=
  ⟨C2_leveled_topological_order c2Targets ["leaf"] c2Rank (by decide),
    by decide⟩

/-! ### Hash engine (`BuildSystem.compute_hash`, `get_compiler_flags`)

The truncated SHA-256 digest is abstracted into a parameter
`h : String → String`; the code's reliance on collision-freeness becomes
the explicit hypotheses that `h` is injective and that its outputs do
not contain the separator `|`. -/

/-- Python's `"|".join`. -/
def pipeJoin : List String → String
  | [] => ""
  | x :: xs => xs.foldl (fun acc y => acc ++ "|" ++ y) x

/-- A string free of the `|` separator. -/
def BarFree (s : String) : Prop := ∀ c ∈ s.data, c ≠ '|'

/-- `BuildSystem.get_compiler_flags`: concatenated whitespace-split
`args` of the profile-dependency rows that are loaded and have
non-empty args. -/
def getCompilerFlags (targets : Dict BRow) (profileDeps : List String) :
    List String :=
  profileDeps.flatMap (fun depId =>
    match dictFind targets depId with
    | some t => if t.args = "" then [] else splitWS t.args
    | none => [])

/-- The dependency loop of `compute_hash`, abstracted over the
recursive call `rec`: a memo hit is used directly, an unmemoized loaded
dependency is computed recursively and memoized, an unknown dependency
contributes nothing. -/
def depFoldWith (targets : Dict BRow)
    (rec : String → Dict String → (String × Dict String))
    (l : List String) (init : List String × Dict String) :
    List String × Dict String :=
  l.foldl (fun acc dep =>
    match dictFind acc.2 dep with
    | some dh => (acc.1 ++ [dep ++ ":" ++ dh], acc.2)
    | none =>
        if (dictFind targets dep).isSome then
          (acc.1 ++ [dep ++ ":" ++ (rec dep acc.2).1],
            dictInsert (rec dep acc.2).2 dep (rec dep acc.2).1)
        else acc) init

/-- `BuildSystem.compute_hash`, with the memo dict (`dep_hashes`)
threaded explicitly and a fuel argument standing in for the recursion
depth (sufficient fuel on acyclic graphs; the wrapper `computeHash`
supplies it): hash the joined `args`, `expr`, sorted dependency
`id:hash` parts and sorted profile flags. -/
def computeHashF (h : String → String) (targets : Dict BRow)
    (profileDeps : List String) :
    Nat → String → Dict String → (String × Dict String)
  | 0, _, memo => ("", memo)
  | fuel + 1, tid, memo =>
      match dictFind targets tid with
      | none => ("", memo)
      | some target =>
          (h (pipeJoin
            [target.args, target.expr,
              pipeJoin (depFoldWith targets
                (computeHashF h targets profileDeps fuel)
                (sortStrings target.depends) ([], memo)).1,
              pipeJoin (sortStrings (getCompilerFlags targets profileDeps))]),
            (depFoldWith targets
              (computeHashF h targets profileDeps fuel)
              (sortStrings target.depends) ([], memo)).2)

/-- The reference digest of a row: a run from an empty memo with fuel
just above the row's rank (any sufficient fuel gives the same value;
see `computeHashF_run`). -/
def cHash (h : String → String) (targets : Dict BRow)
    (profileDeps : List String) (rank : String → Nat) (tid : String) :
    String :=
  (computeHashF h targets profileDeps (rank tid + 1) tid []).1

/-- `BuildSystem.compute_hash(target_id)` as called externally: fresh
memo, with fuel covering any acyclic snapshot whose ranks are bounded by
the row count. -/
def computeHash (h : String → String) (targets : Dict BRow)
    (profileDeps : List String) (tid : String) : String :=
  (computeHashF h targets profileDeps (targets.length + 1) tid []).1

/-- The descendant closure of a row (spec §4.3/glossary): everything
reachable from `x` by repeatedly following the reverse adjacency. -/
inductive RevReach (targets : Dict BRow) (x : String) : String → Prop where
  | direct (y : String) : y ∈ buildReverse targets x → RevReach targets x y
  | step (y z : String) : RevReach targets x y →
      z ∈ buildReverse targets y → RevReach targets x z

/-! ### String layout lemmas for hash-input injectivity -/

theorem strCancelLeft (a m m₂ : String) (h : a ++ m = a ++ m₂) :
    m = m₂ := by
  apply String.ext
  have hd : a.data ++ m.data = a.data ++ m₂.data := congrArg String.data h
  exact List.append_cancel_left hd

theorem strCancelRight (a a₂ m : String) (h : a ++ m = a₂ ++ m) :
    a = a₂ := by
  apply String.ext
  have hd : a.data ++ m.data = a₂.data ++ m.data := congrArg String.data h
  exact List.append_cancel_right hd

/-- Splitting a concatenation at a `|`-free block: if what follows each
block is empty or starts with `|`, the block and the remainder are
determined. -/
theorem barFreeSplit :
    ∀ (a b t u : List Char),
      (∀ c ∈ a, c ≠ '|') → (∀ c ∈ b, c ≠ '|') →
      (t = [] ∨ ∃ t₂, t = '|' :: t₂) → (u = [] ∨ ∃ u₂, u = '|' :: u₂) →
      a ++ t = b ++ u → a = b ∧ t = u := by
  intro a
  induction a with
  | nil =>
      intro b t u _ hb ht hu heq
      cases b with
      | nil => exact ⟨rfl, heq⟩
      | cons c b₂ =>
          exfalso
          rcases ht with ht | ⟨t₂, ht⟩
          · subst ht
            simp at heq
          · subst ht
            simp only [List.nil_append, List.cons_append, List.cons.injEq]
              at heq
            exact hb c (List.mem_cons_self _ _) heq.1.symm
  | cons c a₂ ih =>
      intro b t u ha hb ht hu heq
      cases b with
      | nil =>
          exfalso
          rcases hu with hu | ⟨u₂, hu⟩
          · subst hu
            simp at heq
          · subst hu
            simp only [List.cons_append, List.nil_append, List.cons.injEq]
              at heq
            exact ha c (List.mem_cons_self _ _) heq.1
      | cons c₂ b₂ =>
          simp only [List.cons_append, List.cons.injEq] at heq
          obtain ⟨hc, htail⟩ := heq
          obtain ⟨h₁, h₂⟩ := ih b₂ t u
            (fun x hx => ha x (List.mem_cons_of_mem _ hx))
            (fun x hx => hb x (List.mem_cons_of_mem _ hx)) ht hu htail
          exact ⟨by rw [hc, h₁], h₂⟩

/-- Tail form of a `|`-join. -/
def pipeTail : List String → String
  | [] => ""
  | y :: ys => "|" ++ y ++ pipeTail ys

theorem strAppend_empty (s : String) : s ++ "" = s := by
  apply String.ext
  exact List.append_nil s.data

theorem pipeJoin_cons :
    ∀ (xs : List String) (x : String), pipeJoin (x :: xs) = x ++ pipeTail xs := by
  intro xs
  induction xs with
  | nil => intro x; exact (strAppend_empty x).symm
  | cons y ys ih =>
      intro x
      have h₁ : pipeJoin (x :: y :: ys) = pipeJoin ((x ++ "|" ++ y) :: ys) := by
        rfl
      rw [h₁, ih (x ++ "|" ++ y)]
      apply String.ext
      simp [pipeTail, List.append_assoc]

theorem pipeTail_shape (l : List String) :
    (pipeTail l).data = [] ∨ ∃ t₂, (pipeTail l).data = '|' :: t₂ := by
  cases l with
  | nil => exact Or.inl rfl
  | cons y ys =>
      refine Or.inr ⟨(y ++ pipeTail ys).data, ?_⟩
      show (("|" ++ y) ++ pipeTail ys).data = _
      simp [List.append_assoc]

theorem pipeTail_cons_data (x : String) (xs : List String) :
    (pipeTail (x :: xs)).data = '|' :: (pipeJoin (x :: xs)).data := by
  rw [pipeJoin_cons]
  show (("|" ++ x) ++ pipeTail xs).data = _
  simp [List.append_assoc]

/-- Two `|`-joins of `id:hash` parts over the same id sequence agree
exactly when the (bar-free) hash values agree pointwise. -/
theorem mapPartsInj :
    ∀ (ds : List String) (f g : String → String),
      (∀ d ∈ ds, BarFree (f d)) → (∀ d ∈ ds, BarFree (g d)) →
      pipeJoin (ds.map (fun d => d ++ ":" ++ f d)) =
        pipeJoin (ds.map (fun d => d ++ ":" ++ g d)) →
      ∀ d ∈ ds, f d = g d := by
  intro ds
  induction ds with
  | nil => intro f g _ _ _ d hd; cases hd
  | cons d₀ rest ih =>
      intro f g hf hg heq d hd
      simp only [List.map_cons] at heq
      rw [pipeJoin_cons, pipeJoin_cons] at heq
      have hdata := congrArg String.data heq
      have hsplit₁ : ((d₀ ++ ":" ++ f d₀) ++
          pipeTail (rest.map (fun x => x ++ ":" ++ f x))).data =
          (d₀ ++ ":").data ++ ((f d₀).data ++
            (pipeTail (rest.map (fun x => x ++ ":" ++ f x))).data) := by
        simp [List.append_assoc]
      have hsplit₂ : ((d₀ ++ ":" ++ g d₀) ++
          pipeTail (rest.map (fun x => x ++ ":" ++ g x))).data =
          (d₀ ++ ":").data ++ ((g d₀).data ++
            (pipeTail (rest.map (fun x => x ++ ":" ++ g x))).data) := by
        simp [List.append_assoc]
      rw [hsplit₁, hsplit₂] at hdata
      have hmid := List.append_cancel_left hdata
      have hff : ∀ c ∈ (f d₀).data, c ≠ '|' :=
        fun c hc => hf d₀ (List.mem_cons_self _ _) c hc
      have hgg : ∀ c ∈ (g d₀).data, c ≠ '|' :=
        fun c hc => hg d₀ (List.mem_cons_self _ _) c hc
      obtain ⟨hhead, htail⟩ := barFreeSplit (f d₀).data (g d₀).data _ _
        hff hgg (pipeTail_shape _) (pipeTail_shape _) hmid
      rcases List.mem_cons.mp hd with hcase | hcase
      · subst hcase; exact String.ext hhead
      · refine ih f g
          (fun x hx => hf x (List.mem_cons_of_mem _ hx))
          (fun x hx => hg x (List.mem_cons_of_mem _ hx)) ?_ d hcase
        -- recover equality of the remaining joins from the tails
        cases hrest : rest with
        | nil => rw [hrest] at hcase; cases hcase
        | cons r rs =>
            rw [hrest] at htail
            simp only [List.map_cons] at htail
            rw [pipeTail_cons_data, pipeTail_cons_data] at htail
            injection htail with hbar htail
            simp only [List.map_cons]
            exact String.ext htail

/-! ### Correctness of the memoized hash run -/

theorem dictFind_mem {α : Type} (d : Dict α) (k : String) (v : α) :
    dictFind d k = some v → (k, v) ∈ d := by
  induction d with
  | nil => intro hc; cases hc
  | cons hd rest ih =>
      intro hfind
      obtain ⟨k₁, v₁⟩ := hd
      by_cases hk : k₁ = k
      · subst hk
        rw [dictFind, if_pos rfl] at hfind
        injection hfind with hfind
        rw [hfind]
        exact List.mem_cons_self _ _
      · rw [dictFind, if_neg hk] at hfind
        exact List.mem_cons_of_mem _ (ih hfind)

theorem dictFind_mem_keys {α : Type} (d : Dict α) (k : String) (v : α)
    (hfind : dictFind d k = some v) : k ∈ dictKeys d :=
  mem_dictKeys_of_mem d (k, v) (dictFind_mem d k v hfind)

theorem mem_dictInsert_of_mem {α : Type} (d : Dict α) (k : String) (v : α)
    (kv : String × α) (hkv : kv ∈ d) (hval : kv.1 = k → kv.2 = v) :
    kv ∈ dictInsert d k v := by
  induction d with
  | nil => cases hkv
  | cons hd rest ih =>
      obtain ⟨k₁, v₁⟩ := hd
      by_cases hk : k₁ = k
      · subst hk
        rw [dictInsert, if_pos rfl]
        rcases List.mem_cons.mp hkv with h | h
        · have h₁ : kv.1 = k₁ := by rw [h]
          have h₂ : kv.2 = v := hval h₁
          rw [show kv = (kv.1, kv.2) from rfl, h₁, h₂]
          exact List.mem_cons_self _ _
        · exact List.mem_cons_of_mem _ h
      · rw [dictInsert, if_neg hk]
        rcases List.mem_cons.mp hkv with h | h
        · exact h ▸ List.mem_cons_self _ _
        · exact List.mem_cons_of_mem _ (ih h)

/-- A memo dict is good when every entry is a loaded row paired with its
reference digest. -/
def GoodMemo (h : String → String) (S : Dict BRow) (pd : List String)
    (rank : String → Nat) (memo : Dict String) : Prop :=
  ∀ kv ∈ memo, (dictFind S kv.1).isSome ∧ kv.2 = cHash h S pd rank kv.1

/-- The one-step unfolding of the hash of a loaded row: digest of the
joined `args`, `expr`, sorted dependency parts (loaded dependencies
only) and sorted flags. -/
def hashVal (h : String → String) (S : Dict BRow) (pd : List String)
    (rank : String → Nat) (tid : String) : String :=
  match dictFind S tid with
  | none => ""
  | some t =>
      h (pipeJoin
        [t.args, t.expr,
          pipeJoin ((sortStrings t.depends).filterMap
            (fun d => if (dictFind S d).isSome then
              some (d ++ ":" ++ cHash h S pd rank d) else none)),
          pipeJoin (sortStrings (getCompilerFlags S pd))])

theorem depFoldWith_props (h : String → String) (S : Dict BRow)
    (pd : List String) (rank : String → Nat) (P : String → Prop)
    (rec : String → Dict String → (String × Dict String))
    (hrec : ∀ d m, P d → GoodMemo h S pd rank m →
      (dictFind S d).isSome →
      (rec d m).1 = cHash h S pd rank d ∧
      GoodMemo h S pd rank (rec d m).2 ∧
      (∀ kv ∈ m, kv ∈ (rec d m).2)) :
    ∀ (l : List String) (acc : List String) (m : Dict String),
      GoodMemo h S pd rank m →
      (∀ d ∈ l, (dictFind S d).isSome → P d) →
      (depFoldWith S rec l (acc, m)).1 =
        acc ++ l.filterMap (fun d => if (dictFind S d).isSome then
          some (d ++ ":" ++ cHash h S pd rank d) else none) ∧
      GoodMemo h S pd rank (depFoldWith S rec l (acc, m)).2 ∧
      (∀ kv ∈ m, kv ∈ (depFoldWith S rec l (acc, m)).2) := by
  intro l
  induction l with
  | nil =>
      intro acc m hgood _
      refine ⟨by simp [depFoldWith], hgood, fun kv hkv => hkv⟩
  | cons dep rest ih =>
      intro acc m hgood hP
      have hPrest : ∀ d ∈ rest, (dictFind S d).isSome → P d :=
        fun d hd => hP d (List.mem_cons_of_mem _ hd)
      cases hm : dictFind m dep with
      | some dh =>
          have hmem := dictFind_mem m dep dh hm
          obtain ⟨hsome, hval⟩ := hgood (dep, dh) hmem
          have hstep : depFoldWith S rec (dep :: rest) (acc, m) =
              depFoldWith S rec rest (acc ++ [dep ++ ":" ++ dh], m) := by
            simp [depFoldWith, hm]
          rw [hstep]
          obtain ⟨h₁, h₂, h₃⟩ := ih (acc ++ [dep ++ ":" ++ dh]) m hgood
            hPrest
          refine ⟨?_, h₂, h₃⟩
          rw [h₁]
          have hsome₂ : (dictFind S dep).isSome = true := hsome
          have hval₂ : dh = cHash h S pd rank dep := hval
          simp [List.filterMap_cons, hsome₂, hval₂, List.append_assoc]
      | none =>
          cases hs : (dictFind S dep).isSome with
          | false =>
              have hstep : depFoldWith S rec (dep :: rest) (acc, m) =
                  depFoldWith S rec rest (acc, m) := by
                simp [depFoldWith, hm, hs]
              rw [hstep]
              obtain ⟨h₁, h₂, h₃⟩ := ih acc m hgood hPrest
              refine ⟨?_, h₂, h₃⟩
              rw [h₁]
              simp [List.filterMap_cons, hs]
          | true =>
              obtain ⟨hr₁, hr₂, hr₃⟩ :=
                hrec dep m (hP dep (List.mem_cons_self _ _) hs) hgood hs
              have hstep : depFoldWith S rec (dep :: rest) (acc, m) =
                  depFoldWith S rec rest
                    (acc ++ [dep ++ ":" ++ (rec dep m).1],
                      dictInsert (rec dep m).2 dep (rec dep m).1) := by
                simp [depFoldWith, hm, hs]
              rw [hstep]
              have hgood₂ : GoodMemo h S pd rank
                  (dictInsert (rec dep m).2 dep (rec dep m).1) := by
                intro kv hkv
                rcases mem_dictInsert (rec dep m).2 dep (rec dep m).1 kv hkv
                  with hcase | hcase
                · subst hcase
                  exact ⟨hs, by rw [hr₁]⟩
                · exact hr₂ kv hcase
              obtain ⟨h₁, h₂, h₃⟩ := ih
                (acc ++ [dep ++ ":" ++ (rec dep m).1])
                (dictInsert (rec dep m).2 dep (rec dep m).1) hgood₂ hPrest
              refine ⟨?_, h₂, ?_⟩
              · rw [h₁, hr₁]
                simp [List.filterMap_cons, hs, List.append_assoc]
              · intro kv hkv
                refine h₃ kv ?_
                refine mem_dictInsert_of_mem _ _ _ kv (hr₃ kv hkv) ?_
                intro hk₁
                obtain ⟨-, hval⟩ := hr₂ kv (hr₃ kv hkv)
                rw [hval, hk₁, hr₁]

theorem computeHashF_run (h : String → String) (S : Dict BRow)
    (pd : List String) (rank : String → Nat)
    (hacyc : RankAcyclicOn (buildGraph S) (dictKeys S) rank) :
    ∀ (k : Nat) (tid : String) (fuel : Nat) (memo : Dict String),
      rank tid < k → rank tid < fuel → GoodMemo h S pd rank memo →
      (computeHashF h S pd fuel tid memo).1 = hashVal h S pd rank tid ∧
      GoodMemo h S pd rank (computeHashF h S pd fuel tid memo).2 ∧
      (∀ kv ∈ memo, kv ∈ (computeHashF h S pd fuel tid memo).2) := by
  intro k
  induction k with
  | zero => intro tid fuel memo hk; omega
  | succ k ih =>
      intro tid fuel memo hk hfuel hgood
      cases fuel with
      | zero => omega
      | succ fuel =>
          cases hfind : dictFind S tid with
          | none =>
              refine ⟨?_, ?_, ?_⟩
              · simp [computeHashF, hfind, hashVal]
              · simpa [computeHashF, hfind] using hgood
              · intro kv hkv
                simpa [computeHashF, hfind] using hkv
          | some target =>
              have htidkeys : tid ∈ dictKeys S :=
                dictFind_mem_keys S tid target hfind
              have hdeprank : ∀ d ∈ sortStrings target.depends,
                  (dictFind S d).isSome → rank d < rank tid := by
                intro d hd hds
                have hdep : d ∈ buildGraph S tid := by
                  unfold buildGraph
                  rw [hfind]
                  exact (sortStrings_perm target.depends).subset hd
                have hdkeys : d ∈ dictKeys S := by
                  cases hsd : dictFind S d with
                  | none => rw [hsd] at hds; cases hds
                  | some v => exact dictFind_mem_keys S d v hsd
                exact hacyc tid htidkeys d hdep hdkeys
              have hrec : ∀ d m, rank d < rank tid →
                  GoodMemo h S pd rank m → (dictFind S d).isSome →
                  (computeHashF h S pd fuel d m).1 = cHash h S pd rank d ∧
                  GoodMemo h S pd rank (computeHashF h S pd fuel d m).2 ∧
                  (∀ kv ∈ m, kv ∈ (computeHashF h S pd fuel d m).2) := by
                intro d m hdlt hgm _
                have hdk : rank d < k := by omega
                have hdf : rank d < fuel := by omega
                obtain ⟨ha₁, ha₂, ha₃⟩ := ih d fuel m hdk hdf hgm
                have hchash : cHash h S pd rank d = hashVal h S pd rank d :=
                  (ih d (rank d + 1) [] hdk (Nat.lt_succ_self _)
                    (by intro kv hkv; cases hkv)).1
                exact ⟨by rw [ha₁, hchash], ha₂, ha₃⟩
              obtain ⟨hf₁, hf₂, hf₃⟩ := depFoldWith_props h S pd rank
                (fun d => rank d < rank tid)
                (computeHashF h S pd fuel) hrec
                (sortStrings target.depends) [] memo hgood hdeprank
              refine ⟨?_, ?_, ?_⟩
              · simp only [computeHashF, hfind]
                rw [hf₁]
                unfold hashVal
                rw [hfind]
                simp
              · simp only [computeHashF, hfind]
                exact hf₂
              · intro kv hkv
                simp only [computeHashF, hfind]
                exact hf₃ kv hkv

/-- The reference digest satisfies the one-step unfolding. -/
theorem cHash_eq_hashVal (h : String → String) (S : Dict BRow)
    (pd : List String) (rank : String → Nat)
    (hacyc : RankAcyclicOn (buildGraph S) (dictKeys S) rank)
    (tid : String) : cHash h S pd rank tid = hashVal h S pd rank tid :=
  (computeHashF_run h S pd rank hacyc (rank tid + 1) tid (rank tid + 1) []
    (Nat.lt_succ_self _) (Nat.lt_succ_self _)
    (by intro kv hkv; cases hkv)).1

/-- `compute_hash` as called by the build system equals the reference
digest whenever the rank is bounded by the row count. -/
theorem computeHash_eq_cHash (h : String → String) (S : Dict BRow)
    (pd : List String) (rank : String → Nat)
    (hacyc : RankAcyclicOn (buildGraph S) (dictKeys S) rank)
    (tid : String) (hbound : rank tid < S.length + 1) :
    computeHash h S pd tid = cHash h S pd rank tid := by
  unfold computeHash
  rw [(computeHashF_run h S pd rank hacyc (rank tid + 1) tid
    (S.length + 1) [] (Nat.lt_succ_self _) hbound
    (by intro kv hkv; cases hkv)).1]
  rw [cHash_eq_hashVal h S pd rank hacyc tid]

/-! ### A concrete injective, separator-free digest function

Used by witnesses and counterexamples to instantiate the abstract digest
`h`: every character is encoded as seven decimal digits, so the encoding
is injective and its output never contains `|`. -/

/-- A decimal digit character. -/
def digChar : Nat → Char
  | 0 => '0' | 1 => '1' | 2 => '2' | 3 => '3' | 4 => '4'
  | 5 => '5' | 6 => '6' | 7 => '7' | 8 => '8' | _ => '9'

/-- Seven-decimal-digit encoding of a number below `10^7`. -/
def pad7 (n : Nat) : List Char :=
  [digChar (n / 1000000 % 10), digChar (n / 100000 % 10),
   digChar (n / 10000 % 10), digChar (n / 1000 % 10),
   digChar (n / 100 % 10), digChar (n / 10 % 10), digChar (n % 10)]

/-- The concrete digest: concatenated 7-digit codes of the characters. -/
def hEnc (s : String) : String := ⟨s.data.flatMap (fun c => pad7 c.toNat)⟩

theorem digChar_inj (a b : Nat) (ha : a < 10) (hb : b < 10)
    (h : digChar a = digChar b) : a = b := by
  interval_cases a <;> interval_cases b <;> simp_all [digChar]

theorem digChar_ne_bar (n : Nat) : digChar n ≠ '|' := by
  unfold digChar
  split <;> decide

theorem charToNat_lt (c : Char) : c.toNat < 10 ^ 7 := by
  have h := c.valid
  unfold UInt32.isValidChar at h
  unfold Char.toNat
  rcases h with h | ⟨h₁, h₂⟩
  · omega
  · omega

theorem pad7_inj (n m : Nat) (hn : n < 10 ^ 7) (hm : m < 10 ^ 7)
    (h : pad7 n = pad7 m) : n = m := by
  unfold pad7 at h
  simp only [List.cons.injEq, and_true] at h
  obtain ⟨h₁, h₂, h₃, h₄, h₅, h₆, h₇⟩ := h
  have e₁ := digChar_inj _ _ (Nat.mod_lt _ (by omega))
    (Nat.mod_lt _ (by omega)) h₁
  have e₂ := digChar_inj _ _ (Nat.mod_lt _ (by omega))
    (Nat.mod_lt _ (by omega)) h₂
  have e₃ := digChar_inj _ _ (Nat.mod_lt _ (by omega))
    (Nat.mod_lt _ (by omega)) h₃
  have e₄ := digChar_inj _ _ (Nat.mod_lt _ (by omega))
    (Nat.mod_lt _ (by omega)) h₄
  have e₅ := digChar_inj _ _ (Nat.mod_lt _ (by omega))
    (Nat.mod_lt _ (by omega)) h₅
  have e₆ := digChar_inj _ _ (Nat.mod_lt _ (by omega))
    (Nat.mod_lt _ (by omega)) h₆
  have e₇ := digChar_inj _ _ (Nat.mod_lt _ (by omega))
    (Nat.mod_lt _ (by omega)) h₇
  omega

theorem pad7_flatMap_inj :
    ∀ (l₁ l₂ : List Char),
      l₁.flatMap (fun c => pad7 c.toNat) = l₂.flatMap (fun c => pad7 c.toNat) →
      l₁ = l₂ := by
  intro l₁
  induction l₁ with
  | nil =>
      intro l₂ h
      cases l₂ with
      | nil => rfl
      | cons c rest =>
          exfalso
          rw [List.flatMap_nil, List.flatMap_cons] at h
          have := congrArg List.length h
          simp [pad7] at this
  | cons c₁ rest₁ ih =>
      intro l₂ h
      cases l₂ with
      | nil =>
          exfalso
          rw [List.flatMap_cons, List.flatMap_nil] at h
          have := congrArg List.length h
          simp [pad7] at this
      | cons c₂ rest₂ =>
          rw [List.flatMap_cons, List.flatMap_cons] at h
          have hlen : (pad7 c₁.toNat).length = (pad7 c₂.toNat).length := by
            simp [pad7]
          obtain ⟨hhead, htail⟩ := List.append_inj h hlen
          have hc : c₁ = c₂ :=
            Char.eq_of_val_eq (UInt32.ext
              (pad7_inj _ _ (charToNat_lt c₁) (charToNat_lt c₂) hhead))
          rw [hc, ih rest₂ htail]

theorem hEnc_injective : Function.Injective hEnc := by
  intro s₁ s₂ h
  apply String.ext
  exact pad7_flatMap_inj s₁.data s₂.data (congrArg String.data h)

theorem hEnc_barFree (s : String) : BarFree (hEnc s) := by
  intro c hc
  simp only [hEnc] at hc
  rw [List.mem_flatMap] at hc
  obtain ⟨c₂, -, hc₂⟩ := hc
  unfold pad7 at hc₂
  simp only [List.mem_cons] at hc₂
  rcases hc₂ with h | h | h | h | h | h | h | h
  all_goals first
    | (rw [h]; exact digChar_ne_bar _)
    | cases h

/-! ### Effect of a single-row mutation on the snapshot -/

theorem dictKeys_insert_existing {α : Type} (d : Dict α) (k : String)
    (v : α) (hk : k ∈ dictKeys d) :
    dictKeys (dictInsert d k v) = dictKeys d := by
  induction d with
  | nil => cases hk
  | cons hd rest ih =>
      obtain ⟨k₁, v₁⟩ := hd
      by_cases h : k₁ = k
      · subst h
        rw [dictInsert, if_pos rfl]
        rfl
      · rw [dictInsert, if_neg h]
        have hk₂ : k ∈ dictKeys rest := by
          rcases List.mem_cons.mp hk with h₂ | h₂
          · exact absurd h₂.symm h
          · exact h₂

        show k₁ :: dictKeys (dictInsert rest k v) = k₁ :: dictKeys rest
        rw [ih hk₂]

theorem dictKeys_length {α : Type} (d : Dict α) :
    (dictKeys d).length = d.length := by
  induction d with
  | nil => rfl
  | cons hd rest ih =>
      obtain ⟨k₁, v₁⟩ := hd
      simp [dictKeys, ih]

theorem buildGraph_insert_same (S : Dict BRow) (X : String)
    (row row' : BRow) (hX : dictFind S X = some row)
    (hdeps : row'.depends = row.depends) (n : String) :
    buildGraph (dictInsert S X row') n = buildGraph S n := by
  by_cases hn : n = X
  · subst hn
    unfold buildGraph
    rw [dictFind_insert_self, hX]
    exact hdeps
  · unfold buildGraph
    rw [dictFind_insert_other S X n row' hn]

theorem getCompilerFlags_insert_same (S : Dict BRow) (X : String)
    (row' : BRow) (pd : List String) (hpd : X ∉ pd) :
    getCompilerFlags (dictInsert S X row') pd = getCompilerFlags S pd := by
  unfold getCompilerFlags
  apply List.flatMap_congr
  intro d hd
  have hne : d ≠ X := fun h => hpd (h ▸ hd)
  rw [dictFind_insert_other S X d row' hne]

theorem mem_buildReverse_elim (S : Dict BRow) (y z : String)
    (hnodup : (dictKeys S).Nodup) (hz : z ∈ buildReverse S y) :
    ∃ rowZ, dictFind S z = some rowZ ∧ y ∈ rowZ.depends := by
  unfold buildReverse at hz
  rw [List.mem_filterMap] at hz
  obtain ⟨kv, hkv, hval⟩ := hz
  by_cases hdep : y ∈ kv.2.depends
  · rw [if_pos hdep] at hval
    injection hval with hval
    subst hval
    exact ⟨kv.2, (dictFind_eq_some_iff_mem S kv.1 kv.2 hnodup).mpr hkv, hdep⟩
  · rw [if_neg hdep] at hval
    cases hval

theorem mem_buildReverse_intro (S : Dict BRow) (y z : String)
    (rowZ : BRow) (hfind : dictFind S z = some rowZ)
    (hdep : y ∈ rowZ.depends) : z ∈ buildReverse S y := by
  unfold buildReverse
  rw [List.mem_filterMap]
  exact ⟨(z, rowZ), dictFind_mem S z rowZ hfind, by rw [if_pos hdep]⟩

theorem buildReverse_insert_same (X : String) (row row' : BRow)
    (hdeps : row'.depends = row.depends) (n : String) :
    ∀ S : Dict BRow, dictFind S X = some row →
      buildReverse (dictInsert S X row') n = buildReverse S n := by
  intro S
  induction S with
  | nil => intro hX; simp [dictFind] at hX
  | cons hd rest ih =>
      intro hX
      obtain ⟨k₁, v₁⟩ := hd
      unfold buildReverse
      by_cases hk : k₁ = X
      · subst hk
        rw [dictInsert, if_pos rfl]
        rw [dictFind, if_pos rfl] at hX
        injection hX with hX
        subst hX
        simp only [List.filterMap_cons, hdeps]
      · rw [dictInsert, if_neg hk]
        rw [dictFind, if_neg hk] at hX
        simp only [List.filterMap_cons]
        have := ih hX
        unfold buildReverse at this
        rw [this]

/-- Reachable rows are loaded rows of strictly larger rank. -/
theorem revReach_keys_rank (S : Dict BRow) (rank : String → Nat)
    (hnodup : (dictKeys S).Nodup)
    (hacyc : RankAcyclicOn (buildGraph S) (dictKeys S) rank)
    (X : String) (hX : X ∈ dictKeys S) :
    ∀ y, RevReach S X y → y ∈ dictKeys S ∧ rank X < rank y := by
  intro y hreach
  induction hreach with
  | direct y hy =>
      obtain ⟨rowY, hfind, hdep⟩ := mem_buildReverse_elim S X y hnodup hy
      have hykeys : y ∈ dictKeys S := dictFind_mem_keys S y rowY hfind
      refine ⟨hykeys, ?_⟩
      have hXgraph : X ∈ buildGraph S y := by
        unfold buildGraph
        rw [hfind]
        exact hdep
      exact hacyc y hykeys X hXgraph hX
  | step y z hyreach hz ih =>
      obtain ⟨hykeys, hrank⟩ := ih
      obtain ⟨rowZ, hfind, hdep⟩ := mem_buildReverse_elim S y z hnodup hz
      have hzkeys : z ∈ dictKeys S := dictFind_mem_keys S z rowZ hfind
      refine ⟨hzkeys, ?_⟩
      have hygraph : y ∈ buildGraph S z := by
        unfold buildGraph
        rw [hfind]
        exact hdep
      exact Nat.lt_trans hrank (hacyc z hzkeys y hygraph hykeys)

theorem filterMap_if_eq (l : List String) (c : String → Bool)
    (f : String → String) :
    l.filterMap (fun d => if c d then some (d ++ ":" ++ f d) else none) =
      (l.filter c).map (fun d => d ++ ":" ++ f d) := by
  induction l with
  | nil => rfl
  | cons x rest ih =>
      by_cases hc : c x = true
      · simp [List.filterMap_cons, List.filter_cons, hc, ih]
      · have hc₂ : c x = false := by
          cases h : c x
          · rfl
          · exact absurd h hc
        simp [List.filterMap_cons, List.filter_cons, hc₂, ih]

/-- The reference digest of a loaded row has no `|` in it (it is an
output of `h`). -/
theorem cHash_barFree (h : String → String) (S : Dict BRow)
    (pd : List String) (rank : String → Nat)
    (hacyc : RankAcyclicOn (buildGraph S) (dictKeys S) rank)
    (hbar : ∀ s, BarFree (h s)) (d : String)
    (hd : (dictFind S d).isSome) : BarFree (cHash h S pd rank d) := by
  rw [cHash_eq_hashVal h S pd rank hacyc d]
  unfold hashVal
  cases hfind : dictFind S d with
  | none => rw [hfind] at hd; cases hd
  | some t => exact hbar _

theorem pipeJoin4 (a e j f : String) :
    pipeJoin [a, e, j, f] = ((a ++ "|" ++ e) ++ "|" ++ j) ++ "|" ++ f := rfl

theorem pipeJoin4_mid_inj (a e j j₂ f : String)
    (h : pipeJoin [a, e, j, f] = pipeJoin [a, e, j₂, f]) : j = j₂ := by
  rw [pipeJoin4, pipeJoin4] at h
  have h₁ := strCancelRight _ _ _ h
  have h₂ := strCancelRight _ _ _ h₁
  exact strCancelLeft _ _ _ h₂

theorem pipeJoin4_args_inj (a a₂ e j f : String)
    (h : pipeJoin [a, e, j, f] = pipeJoin [a₂, e, j, f]) : a = a₂ := by
  rw [pipeJoin4, pipeJoin4] at h
  have h₁ := strCancelRight _ _ _ h
  have h₂ := strCancelRight _ _ _ h₁
  have h₃ := strCancelRight _ _ _ h₂
  have h₄ := strCancelRight _ _ _ h₃
  have h₅ := strCancelRight _ _ _ h₄
  exact strCancelRight _ _ _ h₅

theorem pipeJoin4_expr_inj (a e e₂ j f : String)
    (h : pipeJoin [a, e, j, f] = pipeJoin [a, e₂, j, f]) : e = e₂ := by
  rw [pipeJoin4, pipeJoin4] at h
  have h₁ := strCancelRight _ _ _ h
  have h₂ := strCancelRight _ _ _ h₁
  have h₃ := strCancelRight _ _ _ h₂
  have h₄ := strCancelRight _ _ _ h₃
  exact strCancelLeft _ _ _ h₄

/-! ### Hash propagation under a single-row mutation -/

section Mutation

variable (h : String → String) (S : Dict BRow) (pd : List String)
variable (rank : String → Nat) (X : String) (row row' : BRow)

/-- The isSome-status of every lookup is preserved by replacing the
value of an existing key. -/
theorem dictFind_insert_isSome (hX : dictFind S X = some row)
    (d : String) :
    (dictFind (dictInsert S X row') d).isSome = (dictFind S d).isSome := by
  by_cases hd : d = X
  · subst hd
    rw [dictFind_insert_self, hX]
    rfl
  · rw [dictFind_insert_other S X d row' hd]

/-- Hashes of rows outside the descendant closure (and different from
the mutated row) are unchanged by the mutation. -/
theorem hash_unaffected
    (hacyc : RankAcyclicOn (buildGraph S) (dictKeys S) rank)
    (hX : dictFind S X = some row)
    (hdeps : row'.depends = row.depends)
    (hpd : X ∉ pd) :
    ∀ (k : Nat) (y : String), rank y < k → y ∈ dictKeys S →
      ¬ RevReach S X y → y ≠ X →
      cHash h (dictInsert S X row') pd rank y = cHash h S pd rank y := by
  have hXkeys : X ∈ dictKeys S := dictFind_mem_keys S X row hX
  have hkeys : dictKeys (dictInsert S X row') = dictKeys S :=
    dictKeys_insert_existing S X row' hXkeys
  have hacyc₂ : RankAcyclicOn (buildGraph (dictInsert S X row'))
      (dictKeys (dictInsert S X row')) rank := by
    intro n hn d hd hdk
    rw [hkeys] at hn hdk
    rw [buildGraph_insert_same S X row row' hX hdeps n] at hd
    exact hacyc n hn d hd hdk
  intro k
  induction k with
  | zero => intro y hy; omega
  | succ k ih =>
      intro y hylt hykeys hyreach hyX
      rw [cHash_eq_hashVal h _ pd rank hacyc₂ y,
        cHash_eq_hashVal h S pd rank hacyc y]
      unfold hashVal
      rw [dictFind_insert_other S X y row' hyX]
      cases hfindy : dictFind S y with
      | none => rfl
      | some rowY =>
          dsimp only
          rw [getCompilerFlags_insert_same S X row' pd hpd]
          have hmapeq : (sortStrings rowY.depends).filterMap
              (fun d => if (dictFind (dictInsert S X row') d).isSome then
                some (d ++ ":" ++ cHash h (dictInsert S X row') pd rank d)
              else none) =
              (sortStrings rowY.depends).filterMap
              (fun d => if (dictFind S d).isSome then
                some (d ++ ":" ++ cHash h S pd rank d) else none) := by
            apply List.filterMap_congr
            intro d hd
            rw [dictFind_insert_isSome S X row row' hX d]
            cases hds : (dictFind S d).isSome with
            | false => simp [hds]
            | true =>
                have hdkeys : d ∈ dictKeys S := by
                  cases hsd : dictFind S d with
                  | none => rw [hsd] at hds; cases hds
                  | some v => exact dictFind_mem_keys S d v hsd
                have hmemdep : d ∈ rowY.depends :=
                  (sortStrings_perm rowY.depends).subset hd
                have hddep : d ∈ buildGraph S y := by
                  unfold buildGraph
                  rw [hfindy]
                  exact hmemdep
                have hdrank : rank d < rank y :=
                  hacyc y hykeys d hddep hdkeys
                have hdX : d ≠ X := by
                  intro hdx
                  subst hdx
                  exact hyreach (RevReach.direct y
                    (mem_buildReverse_intro S d y rowY hfindy hmemdep))
                have hdreach : ¬ RevReach S X d := by
                  intro hr
                  exact hyreach (RevReach.step d y hr
                    (mem_buildReverse_intro S d y rowY hfindy hmemdep))
                have hvaleq := ih d (by omega) hdkeys hdreach hdX
                simp [hds, hvaleq]
          rw [hmapeq]

/-- If some loaded dependency of a (non-mutated) row changed its hash,
the row's hash changes too. -/
theorem hash_dep_diff (hinj : Function.Injective h)
    (hbar : ∀ s, BarFree (h s))
    (hacyc : RankAcyclicOn (buildGraph S) (dictKeys S) rank)
    (hX : dictFind S X = some row)
    (hdeps : row'.depends = row.depends)
    (hpd : X ∉ pd)
    (z : String) (rowZ : BRow) (hz : dictFind S z = some rowZ)
    (hzX : z ≠ X)
    (d₀ : String) (hd₀dep : d₀ ∈ rowZ.depends)
    (hd₀some : (dictFind S d₀).isSome)
    (hd₀diff : cHash h (dictInsert S X row') pd rank d₀ ≠
      cHash h S pd rank d₀) :
    cHash h (dictInsert S X row') pd rank z ≠ cHash h S pd rank z := by
  have hXkeys : X ∈ dictKeys S := dictFind_mem_keys S X row hX
  have hkeys : dictKeys (dictInsert S X row') = dictKeys S :=
    dictKeys_insert_existing S X row' hXkeys
  have hacyc₂ : RankAcyclicOn (buildGraph (dictInsert S X row'))
      (dictKeys (dictInsert S X row')) rank := by
    intro n hn d hd hdk
    rw [hkeys] at hn hdk
    rw [buildGraph_insert_same S X row row' hX hdeps n] at hd
    exact hacyc n hn d hd hdk
  intro hcon
  rw [cHash_eq_hashVal h _ pd rank hacyc₂ z,
    cHash_eq_hashVal h S pd rank hacyc z] at hcon
  unfold hashVal at hcon
  rw [dictFind_insert_other S X z row' hzX, hz,
    getCompilerFlags_insert_same S X row' pd hpd] at hcon
  dsimp only at hcon
  have hconds : ∀ d, (dictFind (dictInsert S X row') d).isSome =
      (dictFind S d).isSome := dictFind_insert_isSome S X row row' hX
  have hmapeq : (sortStrings rowZ.depends).filterMap
      (fun d => if (dictFind (dictInsert S X row') d).isSome then
        some (d ++ ":" ++ cHash h (dictInsert S X row') pd rank d)
      else none) =
      (sortStrings rowZ.depends).filterMap
      (fun d => if (dictFind S d).isSome then
        some (d ++ ":" ++ cHash h (dictInsert S X row') pd rank d)
      else none) := by
    apply List.filterMap_congr
    intro d _
    rw [hconds d]
  rw [hmapeq, filterMap_if_eq, filterMap_if_eq] at hcon
  have hjoin := pipeJoin4_mid_inj _ _ _ _ _ (hinj hcon)
  have hpoint := mapPartsInj
    ((sortStrings rowZ.depends).filter (fun d => (dictFind S d).isSome))
    (cHash h (dictInsert S X row') pd rank) (cHash h S pd rank)
    (fun d hd => by
      have hds : (dictFind S d).isSome := (List.mem_filter.mp hd).2
      have hds₂ : (dictFind (dictInsert S X row') d).isSome := by
        rw [hconds d]; exact hds
      exact cHash_barFree h _ pd rank hacyc₂ hbar d hds₂)
    (fun d hd => by
      have hds : (dictFind S d).isSome := (List.mem_filter.mp hd).2
      exact cHash_barFree h S pd rank hacyc hbar d hds)
    hjoin
  have hd₀mem : d₀ ∈ (sortStrings rowZ.depends).filter
      (fun d => (dictFind S d).isSome) :=
    List.mem_filter.mpr
      ⟨(sortStrings_perm rowZ.depends).mem_iff.mpr hd₀dep, hd₀some⟩
  exact hd₀diff (hpoint d₀ hd₀mem)

theorem dictFind_isSome_of_mem_keys {α : Type} (d : Dict α) (k : String) :
    k ∈ dictKeys d → (dictFind d k).isSome := by
  induction d with
  | nil => intro hk; cases hk
  | cons hd rest ih =>
      intro hk
      obtain ⟨k₁, v₁⟩ := hd
      by_cases h : k₁ = k
      · rw [dictFind, if_pos h]; rfl
      · rw [dictFind, if_neg h]
        rcases List.mem_cons.mp hk with h₂ | h₂
        · exact absurd h₂.symm h
        · exact ih h₂

/-- The mutated row's own hash changes. -/
theorem hash_X_diff (hinj : Function.Injective h)
    (hnodup : (dictKeys S).Nodup)
    (hacyc : RankAcyclicOn (buildGraph S) (dictKeys S) rank)
    (hX : dictFind S X = some row)
    (hdeps : row'.depends = row.depends)
    (hmut : (row'.args ≠ row.args ∧ row'.expr = row.expr) ∨
      (row'.args = row.args ∧ row'.expr ≠ row.expr))
    (hpd : X ∉ pd) :
    cHash h (dictInsert S X row') pd rank X ≠ cHash h S pd rank X := by
  have hXkeys : X ∈ dictKeys S := dictFind_mem_keys S X row hX
  have hkeys : dictKeys (dictInsert S X row') = dictKeys S :=
    dictKeys_insert_existing S X row' hXkeys
  have hacyc₂ : RankAcyclicOn (buildGraph (dictInsert S X row'))
      (dictKeys (dictInsert S X row')) rank := by
    intro n hn d hd hdk
    rw [hkeys] at hn hdk
    rw [buildGraph_insert_same S X row row' hX hdeps n] at hd
    exact hacyc n hn d hd hdk
  intro hcon
  rw [cHash_eq_hashVal h _ pd rank hacyc₂ X,
    cHash_eq_hashVal h S pd rank hacyc X] at hcon
  unfold hashVal at hcon
  rw [dictFind_insert_self, hX,
    getCompilerFlags_insert_same S X row' pd hpd] at hcon
  dsimp only at hcon
  rw [hdeps] at hcon
  have hconds : ∀ d, (dictFind (dictInsert S X row') d).isSome =
      (dictFind S d).isSome := dictFind_insert_isSome S X row row' hX
  have hmapeq : (sortStrings row.depends).filterMap
      (fun d => if (dictFind (dictInsert S X row') d).isSome then
        some (d ++ ":" ++ cHash h (dictInsert S X row') pd rank d)
      else none) =
      (sortStrings row.depends).filterMap
      (fun d => if (dictFind S d).isSome then
        some (d ++ ":" ++ cHash h S pd rank d) else none) := by
    apply List.filterMap_congr
    intro d hd
    rw [hconds d]
    cases hds : (dictFind S d).isSome with
    | false => simp [hds]
    | true =>
        have hdkeys : d ∈ dictKeys S := by
          cases hsd : dictFind S d with
          | none => rw [hsd] at hds; cases hds
          | some v => exact dictFind_mem_keys S d v hsd
        have hmemdep : d ∈ row.depends :=
          (sortStrings_perm row.depends).subset hd
        have hddep : d ∈ buildGraph S X := by
          unfold buildGraph
          rw [hX]
          exact hmemdep
        have hdrank : rank d < rank X := hacyc X hXkeys d hddep hdkeys
        have hdX : d ≠ X := by
          intro hdx; rw [hdx] at hdrank; omega
        have hdreach : ¬ RevReach S X d := by
          intro hr
          have := (revReach_keys_rank S rank hnodup hacyc X hXkeys d hr).2
          omega
        have hvaleq := hash_unaffected h S pd rank X row row' hacyc hX
          hdeps hpd (rank d + 1) d (Nat.lt_succ_self _) hdkeys hdreach hdX
        simp [hds, hvaleq]
  rw [hmapeq] at hcon
  have hjoins := hinj hcon
  rcases hmut with ⟨hargs, hexpr⟩ | ⟨hargs, hexpr⟩
  · rw [hexpr] at hjoins
    exact hargs (pipeJoin4_args_inj _ _ _ _ _ hjoins)
  · rw [hargs] at hjoins
    exact hexpr (pipeJoin4_expr_inj _ _ _ _ _ hjoins)

end Mutation

/-! ### Claim C1: hash propagation law -/

/-- C1, amended: in the build system's hash engine, for a mutation of a
row X's `args` or `expr` (all other rows unchanged, X's dependency list
unchanged) on an acyclic snapshot, and provided X is not one of the
profile-dependency rows — whose `args` feed the compiler-flag context of
every row's hash — every row in the descendant closure of X hashes
differently after the mutation, and every row outside the closure and
different from X hashes identically. The truncated SHA-256 digest is
abstracted into an injective function with `|`-free output, which is the
collision-freeness the code relies on. -/
theorem C1_hash_propagation (h : String → String)
    (hinj : Function.Injective h) (hbar : ∀ s, BarFree (h s))
    (S : Dict BRow) (pd : List String) (rank : String → Nat)
    (hnodup : (dictKeys S).Nodup)
    (hacyc : RankAcyclicOn (buildGraph S) (dictKeys S) rank)
    (hbound : ∀ n ∈ dictKeys S, rank n < S.length + 1)
    (X : String) (row row' : BRow)
    (hX : dictFind S X = some row)
    (hdeps : row'.depends = row.depends)
    (hmut : (row'.args ≠ row.args ∧ row'.expr = row.expr) ∨
      (row'.args = row.args ∧ row'.expr ≠ row.expr))
    (hpd : X ∉ pd) :
    (∀ y, RevReach S X y →
      computeHash h (dictInsert S X row') pd y ≠ computeHash h S pd y) ∧
    (∀ y ∈ dictKeys S, ¬ RevReach S X y → y ≠ X →
      computeHash h (dictInsert S X row') pd y = computeHash h S pd y) := by
  have hXkeys : X ∈ dictKeys S := dictFind_mem_keys S X row hX
  have hkeys : dictKeys (dictInsert S X row') = dictKeys S :=
    dictKeys_insert_existing S X row' hXkeys
  have hacyc₂ : RankAcyclicOn (buildGraph (dictInsert S X row'))
      (dictKeys (dictInsert S X row')) rank := by
    intro n hn d hd hdk
    rw [hkeys] at hn hdk
    rw [buildGraph_insert_same S X row row' hX hdeps n] at hd
    exact hacyc n hn d hd hdk
  have hlen : (dictInsert S X row').length = S.length := by
    rw [← dictKeys_length, hkeys, dictKeys_length]
  have hconv : ∀ y ∈ dictKeys S,
      computeHash h (dictInsert S X row') pd y =
        cHash h (dictInsert S X row') pd rank y ∧
      computeHash h S pd y = cHash h S pd rank y := by
    intro y hy
    constructor
    · refine computeHash_eq_cHash h _ pd rank hacyc₂ y ?_
      rw [hlen]
      exact hbound y hy
    · exact computeHash_eq_cHash h S pd rank hacyc y (hbound y hy)
  have hcore : ∀ y, RevReach S X y →
      cHash h (dictInsert S X row') pd rank y ≠ cHash h S pd rank y := by
    intro y hreach
    induction hreach with
    | direct y hy =>
        obtain ⟨rowY, hfindy, hdepy⟩ :=
          mem_buildReverse_elim S X y hnodup hy
        have hyX : y ≠ X := by
          have := (revReach_keys_rank S rank hnodup hacyc X hXkeys y
            (RevReach.direct y hy)).2
          intro hcon; rw [hcon] at this; omega
        exact hash_dep_diff h S pd rank X row row' hinj hbar hacyc hX
          hdeps hpd y rowY hfindy hyX X hdepy (by rw [hX]; rfl)
          (hash_X_diff h S pd rank X row row' hinj hnodup hacyc hX hdeps
            hmut hpd)
    | step y z hyreach hz ih =>
        obtain ⟨rowZ, hfindz, hdepz⟩ :=
          mem_buildReverse_elim S y z hnodup hz
        have hykeys : y ∈ dictKeys S :=
          (revReach_keys_rank S rank hnodup hacyc X hXkeys y hyreach).1
        have hzX : z ≠ X := by
          have := (revReach_keys_rank S rank hnodup hacyc X hXkeys z
            (RevReach.step y z hyreach hz)).2
          intro hcon; rw [hcon] at this; omega
        exact hash_dep_diff h S pd rank X row row' hinj hbar hacyc hX
          hdeps hpd z rowZ hfindz hzX y hdepz
          (dictFind_isSome_of_mem_keys S y hykeys) ih
  constructor
  · intro y hreach
    have hykeys : y ∈ dictKeys S :=
      (revReach_keys_rank S rank hnodup hacyc X hXkeys y hreach).1
    obtain ⟨hc₁, hc₂⟩ := hconv y hykeys
    rw [hc₁, hc₂]
    exact hcore y hreach
  · intro y hykeys hyreach hyX
    obtain ⟨hc₁, hc₂⟩ := hconv y hykeys
    rw [hc₁, hc₂]
    exact hash_unaffected h S pd rank X row row' hacyc hX hdeps hpd
      (rank y + 1) y (Nat.lt_succ_self _) hykeys hyreach hyX

/-- The original `root` row of the diamond snapshot. -/
def c2RootRow : BRow :=
  { id := "root", locked := false, name := "", args := "", expr := "",
    scope := none, depends := [], sources := [] }

/-- The mutated `root` row: `args` changed. -/
def c2RootRowMut : BRow := { c2RootRow with args := "-O2" }

/-- Witness for C1: mutating `root`'s args in the diamond snapshot
changes the hash of every row in `descendant_closure(root)` and leaves
every other row's hash unchanged. -/
theorem C1_hash_propagation_witness :
    (∀ y, RevReach c2Targets "root" y →
      computeHash hEnc (dictInsert c2Targets "root" c2RootRowMut) []
        y ≠ computeHash hEnc c2Targets [] y) ∧
    (∀ y ∈ dictKeys c2Targets, ¬ RevReach c2Targets "root" y →
      y ≠ "root" →
      computeHash hEnc (dictInsert c2Targets "root" c2RootRowMut) []
        y = computeHash hEnc c2Targets [] y) :=
  C1_hash_propagation hEnc hEnc_injective hEnc_barFree c2Targets []
    c2Rank (by decide) (by decide) (by decide) "root" c2RootRow
    c2RootRowMut (by decide) (by decide)
    (Or.inl ⟨by decide, by decide⟩) (by simp)

/-- Raw rows of the flags-leak counterexample: a profile row `P` and an
unrelated row `Y`. -/
def c1Rows : List CliRaw :=
  [{ id := some "P", args := some "-O2" }, { id := some "Y" }]

/-- Snapshot of the flags-leak counterexample. -/
def c1S : Dict BRow := buildLoadTargets c1Rows

/-- `P` with its args mutated. -/
def c1RowPMut : BRow :=
  { id := "P", locked := false, name := "", args := "-O3", expr := "",
    scope := none, depends := [], sources := [] }

theorem revReach_of_no_reverse (S : Dict BRow)
    (hempty : ∀ a, buildReverse S a = []) (x y : String) :
    ¬ RevReach S x y := by
  intro hreach
  induction hreach with
  | direct y hy => rw [hempty] at hy; cases hy
  | step y z hyreach hz ih => exact ih

/-- Counterexample for C1 as originally stated: when the mutated row is
a profile dependency (here `P`, whose args feed the compiler flags of
every hash), a row `Y` outside `descendant_closure(P)` still changes its
hash. -/
theorem C1_flags_change_unrelated_hash :
    (¬ RevReach c1S "P" "Y") ∧ ("Y" : String) ≠ "P" ∧
    computeHash hEnc (dictInsert c1S "P" c1RowPMut) ["P"] "Y" ≠
      computeHash hEnc c1S ["P"] "Y" := by
  refine ⟨revReach_of_no_reverse c1S ?_ "P" "Y", by decide, by decide⟩
  intro a
  rfl

/-! ### Scheduler run (`BuildSystem.build`, examples/buildsystem/build.py)

The level loop of `BuildSystem.build` (everything after
`get_build_order`), with the sources of nondeterminism — the simulated
executor fault (`random.random() < 0.02`), the locked-row confirmation
prompt, the produced output hash and the cache timestamp — supplied as
oracle parameters, bundled in `RunEnv` together with the run flags. -/

/-- The ambient inputs of one `build` invocation. -/
structure RunEnv where
  h : String → String
  pd : List String
  execFails : String → Bool
  confirmYes : String → Bool
  outHash : String → String
  now : Nat
  dryRun : Bool
  force : Bool

/-- Outcome recorded for one row processed by the level loop:
dependency skip, declined confirmation of a locked row, cache hit,
dry-run plan, successful executor run, or executor fault. -/
inductive BOutcome where
  | depSkipped
  | notConfirmed
  | cachedHit
  | dryPlanned
  | built
  | failed
deriving DecidableEq, Repr

/-- Mutable state of the level loop: the `failed_targets` set, the
result cache, and the per-row outcome trace in processing order. -/
structure BuildState where
  failedSet : List String
  cache : BuildCache
  trace : List (String × BOutcome)
deriving DecidableEq, Repr

/-- `BuildSystem.build_target` for a loaded row: compute the input
hash; outside `force`, a cache hit (Python's `if cached_hash:`, so the
cached output hash must be non-empty) returns the cached artifact; a
dry run returns without touching cache or executor; the executor faults
(`none`, mirroring the `Optional[BuildArtifact]` result) when the
failure draw fires on an unlocked row; success stores the produced
output hash in the cache. -/
def buildTargetRun (E : RunEnv) (S : Dict BRow) (cache : BuildCache)
    (tid : String) (row : BRow) : Option BOutcome × BuildCache :=
  let input_hash := computeHash E.h S E.pd tid
  let hit : Bool :=
    if E.force then false
    else
      match cacheGet cache tid input_hash with
      | some s => !(s == "")
      | none => false
  if hit then (some .cachedHit, cache)
  else if E.dryRun then (some .dryPlanned, cache)
  else if E.execFails tid && !row.locked then (none, cache)
  else (some .built, cachePut cache tid input_hash (E.outHash tid) E.now)

/-- One iteration of the inner loop of `BuildSystem.build`: an unloaded
row id is passed over silently; a row with an already-failed direct
dependency is skipped — and NOT added to `failed_targets`; a locked row
whose confirmation is declined (asked only outside dry runs) is
skipped; otherwise `build_target` runs, a `none` artifact putting the
row into `failed_targets`. -/
def processTarget (E : RunEnv) (S : Dict BRow) (st : BuildState)
    (tid : String) : BuildState :=
  match dictFind S tid with
  | none => st
  | some row =>
      if (buildGraph S tid).any (fun d => st.failedSet.contains d) then
        { st with trace := st.trace ++ [(tid, .depSkipped)] }
      else if row.locked && !E.dryRun && !(E.confirmYes tid) then
        { st with trace := st.trace ++ [(tid, .notConfirmed)] }
      else
        match buildTargetRun E S st.cache tid row with
        | (some out, c₂) =>
            { st with cache := c₂, trace := st.trace ++ [(tid, out)] }
        | (none, c₂) =>
            { failedSet := st.failedSet ++ [tid], cache := c₂,
              trace := st.trace ++ [(tid, .failed)] }

/-- The loop over `build_order`, level by level, row by row. -/
def runLevels (E : RunEnv) (S : Dict BRow) (st : BuildState) :
    List (List String) → BuildState
  | [] => st
  | lvl :: rest =>
      runLevels E S (lvl.foldl (processTarget E S) st) rest

/-- `BuildSystem.build` from `get_build_order` on: run the level loop
and return the final state together with the verdict
`len(failed_targets) == 0`. -/
def buildRun (E : RunEnv) (S : Dict BRow) (cache₀ : BuildCache)
    (ts : List String) : BuildState × Bool :=
  let st := runLevels E S { failedSet := [], cache := cache₀, trace := [] }
    (getBuildOrder S ts)
  (st, st.failedSet.isEmpty)

/-- The outcome trace of a run. -/
def runTrace (E : RunEnv) (S : Dict BRow) (cache₀ : BuildCache)
    (ts : List String) : List (String × BOutcome) :=
  (buildRun E S cache₀ ts).1.trace

/-! ### The data-pipeline scheduler (`DataPipeline.run`,
examples/datapipeline/pipeline.py) -/

/-- The fields of `PipelineStage` that drive the control flow of
`simulate_stage` (name, args and the simulated duration only feed
output). -/
structure PStage where
  locked : Bool
deriving DecidableEq, Repr

/-- `DataPipeline.simulate_stage`, reduced to the `success` flag of its
`StageResult`: a locked stage fails when its confirmation is declined
(asked only outside dry runs) and otherwise never faults; an unlocked
stage faults when the failure draw fires. -/
def simulateStage (execFails confirmYes : String → Bool) (dryRun : Bool)
    (stage : PStage) (sid : String) : Bool :=
  if stage.locked && !dryRun && !(confirmYes sid) then false
  else if dryRun then true
  else if execFails sid && !stage.locked then false
  else true

section Pipeline

variable (execFails confirmYes : String → Bool) (dryRun : Bool)
  (stages : Dict PStage) (target : Option String)

/-- The stage loop of `DataPipeline.run` over one level: a stage
filtered out by the `target` argument is not simulated; a failed result
makes `run` return immediately (second component `true`), leaving the
remaining stages of this and of all later levels unsimulated.
`processed` records the stages whose `simulate_stage` ran. (Stage ids in
the levels are keys of `stages` in `run`; an id without a stage, which
would raise in Python, is passed over.) -/
def pipeRunStages (processed : List String) :
    List String → List String × Bool
  | [] => (processed, false)
  | sid :: rest =>
      if target.isSome && !(target == some sid) then
        pipeRunStages processed rest
      else
        match dictFind stages sid with
        | none => pipeRunStages processed rest
        | some stage =>
            if simulateStage execFails confirmYes dryRun stage sid then
              pipeRunStages (processed ++ [sid]) rest
            else (processed ++ [sid], true)

/-- The level loop of `DataPipeline.run`: an aborted level aborts the
whole run. -/
def pipeRunLevels (processed : List String) :
    List (List String) → List String × Bool
  | [] => (processed, false)
  | lvl :: rest =>
      match pipeRunStages execFails confirmYes dryRun stages target
          processed lvl with
      | (p₂, true) => (p₂, true)
      | (p₂, false) => pipeRunLevels p₂ rest

/-- `DataPipeline.run` from its execution levels on: the simulated
stages and the returned verdict (`False` exactly when some simulated
stage failed — because the loop returns at the first failure). -/
def pipeRun (levels : List (List String)) : List String × Bool :=
  let r := pipeRunLevels execFails confirmYes dryRun stages target
    [] levels
  (r.1, !r.2)

end Pipeline

/-- The two independent stages of the abort scenario. -/
def c3Stages : Dict PStage :=
  [("a", { locked := false }), ("b", { locked := false })]

/-- Counterexample for C3: in `DataPipeline.run`, when stage `a`
faults, stage `b` — which has no dependencies at all — is never
simulated, and the run returns `False` at the first failure instead of
continuing with the rows whose dependencies did not fail. -/
theorem C3_pipeline_aborts_on_failure :
    pipeRun (fun s => s == "a") (fun _ => true) false c3Stages none
      [["a", "b"]] = (["a"], false) := by decide

/-! ### Ordering facts about the build order -/

/-- A row sequence lists every dependency that occurs in it strictly
before its dependent. -/
def DepsBefore (g : String → List String) (seq : List String) : Prop :=
  ∀ pre tid post, seq = pre ++ tid :: post →
    ∀ d ∈ g tid, d ∈ seq → d ∈ pre

theorem nodup_split_unique {α : Type} (x : α) :
    ∀ (p₁ s₁ p₂ s₂ : List α), (p₁ ++ x :: s₁).Nodup →
      p₁ ++ x :: s₁ = p₂ ++ x :: s₂ → p₁ = p₂ := by
  intro p₁
  induction p₁ with
  | nil =>
      intro s₁ p₂ s₂ hnd heq
      cases p₂ with
      | nil => rfl
      | cons y q =>
          exfalso
          simp only [List.nil_append, List.cons_append, List.cons.injEq]
            at heq
          obtain ⟨hxy, hs⟩ := heq
          have hx : x ∈ q ++ x :: s₂ :=
            List.mem_append_right _ (List.mem_cons_self _ _)
          rw [← hs] at hx
          simp only [List.nil_append, List.nodup_cons] at hnd
          exact hnd.1 hx
  | cons z p ih =>
      intro s₁ p₂ s₂ hnd heq
      cases p₂ with
      | nil =>
          exfalso
          simp only [List.cons_append, List.nil_append, List.cons.injEq]
            at heq
          obtain ⟨hzx, hs⟩ := heq
          simp only [List.cons_append, List.nodup_cons] at hnd
          apply hnd.1
          rw [hzx]
          exact List.mem_append_right _ (List.mem_cons_self _ _)
      | cons y q =>
          simp only [List.cons_append, List.cons.injEq] at heq
          obtain ⟨hzy, hs⟩ := heq
          simp only [List.cons_append, List.nodup_cons] at hnd
          rw [hzy, ih s₁ q s₂ hnd.2 hs]

/-- A leveled order whose levels partition the node set and place every
in-set dependency in a strictly earlier level lists dependencies first
once flattened. -/
theorem depsBefore_of_levels (g : String → List String) (R : List String)
    (L : List (List String)) (hperm : L.flatten.Perm R)
    (hnodup : L.flatten.Nodup)
    (hlvl : ∀ pre lvl post, L = pre ++ lvl :: post →
      ∀ n ∈ lvl, ∀ d ∈ g n, d ∈ R →
        ∃ pre₂ l₂ post₂, pre = pre₂ ++ l₂ :: post₂ ∧ d ∈ l₂) :
    DepsBefore g L.flatten := by
  intro pre tid post hsplit d hd hdseq
  have hdR : d ∈ R := hperm.subset hdseq
  have htid : tid ∈ L.flatten := by
    rw [hsplit]
    exact List.mem_append_right _ (List.mem_cons_self _ _)
  obtain ⟨lvl, hlvlL, htidlvl⟩ := List.mem_flatten.mp htid
  obtain ⟨p₂, s₂, hL⟩ := List.append_of_mem hlvlL
  obtain ⟨a, b, hlvleq⟩ := List.append_of_mem htidlvl
  obtain ⟨pre₃, l₂, post₃, hp₂, hdl₂⟩ :=
    hlvl p₂ lvl s₂ hL tid htidlvl d hd hdR
  have hflat : L.flatten = (p₂.flatten ++ a) ++ tid :: (b ++ s₂.flatten) := by
    rw [hL, List.flatten_append, List.flatten_cons, hlvleq]
    simp
  have hnd : (pre ++ tid :: post).Nodup := by
    rw [← hsplit]
    exact hnodup
  have hpre : pre = p₂.flatten ++ a :=
    nodup_split_unique tid pre post (p₂.flatten ++ a) (b ++ s₂.flatten)
      hnd (hsplit.symm.trans hflat)
  rw [hpre]
  apply List.mem_append_left
  refine List.mem_flatten.mpr ⟨l₂, ?_, hdl₂⟩
  rw [hp₂]
  exact List.mem_append_right _ (List.mem_cons_self _ _)

/-- The dependency-skip test of the level loop, as a proposition. -/
theorem skipCond_true_iff (S : Dict BRow) (fs : List String)
    (tid : String) :
    ((buildGraph S tid).any (fun d => fs.contains d)) = true ↔
      ∃ d ∈ buildGraph S tid, d ∈ fs := by
  rw [List.any_eq_true]
  constructor
  · rintro ⟨d, hd, hc⟩
    exact ⟨d, hd, (contains_true_iff fs d).mp hc⟩
  · rintro ⟨d, hd, hm⟩
    exact ⟨d, hd, (contains_true_iff fs d).mpr hm⟩

/-- `build_target` faults only when the failure draw fires on an
unlocked row outside a dry run. -/
theorem buildTargetRun_none (E : RunEnv) (S : Dict BRow)
    (cache : BuildCache) (tid : String) (row : BRow)
    (hres : (buildTargetRun E S cache tid row).1 = none) :
    E.execFails tid = true ∧ E.dryRun = false ∧ row.locked = false := by
  unfold buildTargetRun at hres
  dsimp only at hres
  repeat' split at hres
  all_goals simp_all

/-- A non-`none` `build_target` result is a cache hit, dry-run plan, or
successful build — never a skip and never a failure. -/
theorem buildTargetRun_some (E : RunEnv) (S : Dict BRow)
    (cache : BuildCache) (tid : String) (row : BRow) (out : BOutcome)
    (hres : (buildTargetRun E S cache tid row).1 = some out) :
    out ≠ BOutcome.depSkipped ∧ out ≠ BOutcome.failed := by
  unfold buildTargetRun at hres
  dsimp only at hres
  repeat' split at hres
  all_goals simp_all
  all_goals subst hres
  all_goals exact ⟨by decide, by decide⟩

/-! ### Invariants of the level loop -/

/-- Loop invariant of the level loop over the row sequence `seq`, with
`done` the rows already handed to the loop: `failed_targets` holds
exactly the rows with a `failed` event; events belong to already
handled loaded rows; every handled loaded row has an event; a
`depSkipped` event has a direct dependency with a `failed` event; a
`failed` event comes from a real executor fault (failure draw fired on
an unlocked row outside a dry run); and — when the sequence is
duplicate-free and lists dependencies first — events are unique per row
and every handled loaded row with a failed direct dependency was
dep-skipped. -/
def RunInv (E : RunEnv) (S : Dict BRow) (seq done : List String)
    (st : BuildState) : Prop :=
  (∀ x, x ∈ st.failedSet ↔ (x, BOutcome.failed) ∈ st.trace) ∧
  (∀ e ∈ st.trace, e.1 ∈ done ∧ (dictFind S e.1).isSome = true) ∧
  (∀ tid ∈ done, (dictFind S tid).isSome = true →
    ∃ out, (tid, out) ∈ st.trace) ∧
  (∀ tid out, (tid, out) ∈ st.trace → out = BOutcome.depSkipped →
    ∃ d ∈ buildGraph S tid, (d, BOutcome.failed) ∈ st.trace) ∧
  (∀ tid, (tid, BOutcome.failed) ∈ st.trace →
    E.execFails tid = true ∧ E.dryRun = false ∧
    ∃ row, dictFind S tid = some row ∧ row.locked = false) ∧
  (DepsBefore (buildGraph S) seq ∧ seq.Nodup →
    (st.trace.map Prod.fst).Nodup ∧
    (∀ tid ∈ done, (dictFind S tid).isSome = true →
      (∃ d ∈ buildGraph S tid, (d, BOutcome.failed) ∈ st.trace) →
      (tid, BOutcome.depSkipped) ∈ st.trace))

theorem runInv_unloaded (E : RunEnv) (S : Dict BRow)
    (seq done : List String) (tid : String) (st : BuildState)
    (hload : dictFind S tid = none)
    (hinv : RunInv E S seq done st) :
    RunInv E S seq (done ++ [tid]) st := by
  obtain ⟨I1, I2, I3, I4, I5, IC⟩ := hinv
  refine ⟨I1, ?_, ?_, I4, I5, ?_⟩
  · intro e he
    exact ⟨List.mem_append_left _ (I2 e he).1, (I2 e he).2⟩
  · intro tid₂ h₂ hl₂
    rcases List.mem_append.mp h₂ with h₂ | h₂
    · exact I3 tid₂ h₂ hl₂
    · exfalso
      have h₃ : tid₂ = tid := by simpa using h₂
      rw [h₃, hload] at hl₂
      simp at hl₂
  · intro hdb
    obtain ⟨ICn, IC7⟩ := IC hdb
    refine ⟨ICn, ?_⟩
    intro tid₂ h₂ hl₂ hex
    rcases List.mem_append.mp h₂ with h₂ | h₂
    · exact IC7 tid₂ h₂ hl₂ hex
    · exfalso
      have h₃ : tid₂ = tid := by simpa using h₂
      rw [h₃, hload] at hl₂
      simp at hl₂

theorem runInv_step_ok (E : RunEnv) (S : Dict BRow)
    (seq done : List String) (tid : String) (st : BuildState)
    (c₂ : BuildCache) (out : BOutcome)
    (hload : (dictFind S tid).isSome = true)
    (hnf : out ≠ BOutcome.failed)
    (hskip : out = BOutcome.depSkipped →
      ∃ d ∈ buildGraph S tid, d ∈ st.failedSet)
    (hnoskip : out ≠ BOutcome.depSkipped →
      ∀ d ∈ buildGraph S tid, d ∉ st.failedSet)
    (hnew : seq.Nodup → tid ∉ done)
    (hinv : RunInv E S seq done st) :
    RunInv E S seq (done ++ [tid])
      { failedSet := st.failedSet, cache := c₂,
        trace := st.trace ++ [(tid, out)] } := by
  obtain ⟨I1, I2, I3, I4, I5, IC⟩ := hinv
  have hfe : ∀ x, (x, BOutcome.failed) ∈ st.trace ++ [(tid, out)] ↔
      (x, BOutcome.failed) ∈ st.trace := by
    intro x
    constructor
    · intro hx
      rcases List.mem_append.mp hx with hx | hx
      · exact hx
      · exfalso
        have h₃ : (x, BOutcome.failed) = (tid, out) := by simpa using hx
        exact hnf (congrArg Prod.snd h₃).symm
    · intro hx
      exact List.mem_append_left _ hx
  refine ⟨?_, ?_, ?_, ?_, ?_, ?_⟩
  · intro x
    dsimp only
    rw [hfe x]
    exact I1 x
  · intro e he
    dsimp only at he
    rcases List.mem_append.mp he with he | he
    · exact ⟨List.mem_append_left _ (I2 e he).1, (I2 e he).2⟩
    · have h₃ : e = (tid, out) := by simpa using he
      rw [h₃]
      exact ⟨List.mem_append_right _ (List.mem_cons_self _ _), hload⟩
  · intro tid₂ h₂ hl₂
    dsimp only
    rcases List.mem_append.mp h₂ with h₂ | h₂
    · obtain ⟨o, ho⟩ := I3 tid₂ h₂ hl₂
      exact ⟨o, List.mem_append_left _ ho⟩
    · have h₃ : tid₂ = tid := by simpa using h₂
      rw [h₃]
      exact ⟨out, List.mem_append_right _ (List.mem_cons_self _ _)⟩
  · intro tid₂ o₂ hmem hds
    dsimp only at hmem ⊢
    rcases List.mem_append.mp hmem with hm | hm
    · obtain ⟨d, hd, hdf⟩ := I4 tid₂ o₂ hm hds
      exact ⟨d, hd, List.mem_append_left _ hdf⟩
    · have h₃ : (tid₂, o₂) = (tid, out) := by simpa using hm
      have ht : tid₂ = tid := congrArg Prod.fst h₃
      have ho : o₂ = out := congrArg Prod.snd h₃
      obtain ⟨d, hd, hdfs⟩ := hskip (by rw [← ho, ← hds])
      rw [ht]
      exact ⟨d, hd, List.mem_append_left _ ((I1 d).mp hdfs)⟩
  · intro tid₂ hf
    dsimp only at hf
    rw [hfe tid₂] at hf
    exact I5 tid₂ hf
  · intro hdb
    obtain ⟨ICn, IC7⟩ := IC hdb
    constructor
    · dsimp only
      rw [List.map_append]
      apply List.Nodup.append ICn (by simp)
      intro x hx hx₂
      have hxt : x = tid := by simpa using hx₂
      have : x ∈ done := by
        obtain ⟨e, he, hfst⟩ := List.mem_map.mp hx
        rw [← hfst]
        exact (I2 e he).1
      rw [hxt] at this
      exact hnew hdb.2 this
    · intro tid₂ h₂ hl₂ hex
      dsimp only at hex ⊢
      have hex₂ : ∃ d ∈ buildGraph S tid₂,
          (d, BOutcome.failed) ∈ st.trace := by
        obtain ⟨d, hd, hdf⟩ := hex
        exact ⟨d, hd, (hfe d).mp hdf⟩
      rcases List.mem_append.mp h₂ with h₂ | h₂
      · exact List.mem_append_left _ (IC7 tid₂ h₂ hl₂ hex₂)
      · have h₃ : tid₂ = tid := by simpa using h₂
        subst h₃
        by_cases hout : out = BOutcome.depSkipped
        · subst hout
          exact List.mem_append_right _ (List.mem_cons_self _ _)
        · exfalso
          obtain ⟨d, hd, hdf⟩ := hex₂
          exact hnoskip hout d hd ((I1 d).mpr hdf)

theorem runInv_step_failed (E : RunEnv) (S : Dict BRow)
    (seq done : List String) (tid : String) (st : BuildState)
    (c₂ : BuildCache)
    (hload : (dictFind S tid).isSome = true)
    (hfact : E.execFails tid = true ∧ E.dryRun = false ∧
      ∃ row, dictFind S tid = some row ∧ row.locked = false)
    (hnoskip : ∀ d ∈ buildGraph S tid, d ∉ st.failedSet)
    (hnew : seq.Nodup → tid ∉ done)
    (hfresh : DepsBefore (buildGraph S) seq → seq.Nodup →
      ∀ tid₂, tid ∈ buildGraph S tid₂ → tid₂ ∈ done ++ [tid] → False)
    (hinv : RunInv E S seq done st) :
    RunInv E S seq (done ++ [tid])
      { failedSet := st.failedSet ++ [tid], cache := c₂,
        trace := st.trace ++ [(tid, BOutcome.failed)] } := by
  obtain ⟨I1, I2, I3, I4, I5, IC⟩ := hinv
  have hfe : ∀ x, (x, BOutcome.failed) ∈
      st.trace ++ [(tid, BOutcome.failed)] ↔
      ((x, BOutcome.failed) ∈ st.trace ∨ x = tid) := by
    intro x
    constructor
    · intro hx
      rcases List.mem_append.mp hx with hx | hx
      · exact Or.inl hx
      · have h₃ : (x, BOutcome.failed) = (tid, BOutcome.failed) := by
          simpa using hx
        exact Or.inr (congrArg Prod.fst h₃)
    · intro hx
      rcases hx with hx | hx
      · exact List.mem_append_left _ hx
      · rw [hx]
        exact List.mem_append_right _ (List.mem_cons_self _ _)
  refine ⟨?_, ?_, ?_, ?_, ?_, ?_⟩
  · intro x
    dsimp only
    rw [hfe x]
    constructor
    · intro hx
      rcases List.mem_append.mp hx with hx | hx
      · exact Or.inl ((I1 x).mp hx)
      · exact Or.inr (by simpa using hx)
    · intro hx
      rcases hx with hx | hx
      · exact List.mem_append_left _ ((I1 x).mpr hx)
      · rw [hx]
        exact List.mem_append_right _ (List.mem_cons_self _ _)
  · intro e he
    dsimp only at he
    rcases List.mem_append.mp he with he | he
    · exact ⟨List.mem_append_left _ (I2 e he).1, (I2 e he).2⟩
    · have h₃ : e = (tid, BOutcome.failed) := by simpa using he
      rw [h₃]
      exact ⟨List.mem_append_right _ (List.mem_cons_self _ _), hload⟩
  · intro tid₂ h₂ hl₂
    dsimp only
    rcases List.mem_append.mp h₂ with h₂ | h₂
    · obtain ⟨o, ho⟩ := I3 tid₂ h₂ hl₂
      exact ⟨o, List.mem_append_left _ ho⟩
    · have h₃ : tid₂ = tid := by simpa using h₂
      rw [h₃]
      exact ⟨BOutcome.failed,
        List.mem_append_right _ (List.mem_cons_self _ _)⟩
  · intro tid₂ o₂ hmem hds
    dsimp only at hmem ⊢
    rcases List.mem_append.mp hmem with hm | hm
    · obtain ⟨d, hd, hdf⟩ := I4 tid₂ o₂ hm hds
      exact ⟨d, hd, List.mem_append_left _ hdf⟩
    · exfalso
      have h₃ : (tid₂, o₂) = (tid, BOutcome.failed) := by simpa using hm
      have ho : o₂ = BOutcome.failed := congrArg Prod.snd h₃
      rw [hds] at ho
      exact absurd ho (by decide)
  · intro tid₂ hf
    dsimp only at hf
    rcases (hfe tid₂).mp hf with hf | hf
    · exact I5 tid₂ hf
    · rw [hf]
      exact hfact
  · intro hdb
    obtain ⟨ICn, IC7⟩ := IC hdb
    constructor
    · dsimp only
      rw [List.map_append]
      apply List.Nodup.append ICn (by simp)
      intro x hx hx₂
      have hxt : x = tid := by simpa using hx₂
      have hxd : x ∈ done := by
        obtain ⟨e, he, hfst⟩ := List.mem_map.mp hx
        rw [← hfst]
        exact (I2 e he).1
      rw [hxt] at hxd
      exact hnew hdb.2 hxd
    · intro tid₂ h₂ hl₂ hex
      dsimp only at hex ⊢
      obtain ⟨d, hd, hdf⟩ := hex
      rcases (hfe d).mp hdf with hdf₂ | hdeq
      · rcases List.mem_append.mp h₂ with h₂ | h₂
        · exact List.mem_append_left _
            (IC7 tid₂ h₂ hl₂ ⟨d, hd, hdf₂⟩)
        · exfalso
          have h₃ : tid₂ = tid := by simpa using h₂
          rw [h₃] at hd
          exact hnoskip d hd ((I1 d).mpr hdf₂)
      · exfalso
        rw [hdeq] at hd
        exact hfresh hdb.1 hdb.2 tid₂ hd h₂

theorem processTarget_inv (E : RunEnv) (S : Dict BRow)
    (seq done rest : List String) (tid : String) (st : BuildState)
    (hseq : seq = done ++ tid :: rest)
    (hinv : RunInv E S seq done st) :
    RunInv E S seq (done ++ [tid]) (processTarget E S st tid) := by
  have hnew : seq.Nodup → tid ∉ done := by
    intro hnd htid
    rw [hseq] at hnd
    exact (List.nodup_append.mp hnd).2.2 htid (List.mem_cons_self _ _)
  have hfresh : DepsBefore (buildGraph S) seq → seq.Nodup →
      ∀ tid₂, tid ∈ buildGraph S tid₂ → tid₂ ∈ done ++ [tid] → False := by
    intro hdb hnd tid₂ hdep htid₂
    have htidseq : tid ∈ seq := by
      rw [hseq]
      exact List.mem_append_right _ (List.mem_cons_self _ _)
    rcases List.mem_append.mp htid₂ with h₂ | h₂
    · obtain ⟨p, s, hps⟩ := List.append_of_mem h₂
      have hsplit : seq = p ++ tid₂ :: (s ++ tid :: rest) := by
        rw [hseq, hps]
        simp
      have hin : tid ∈ p := hdb p tid₂ _ hsplit tid hdep htidseq
      have hind : tid ∈ done := by
        rw [hps]
        exact List.mem_append_left _ hin
      exact hnew hnd hind
    · have h₃ : tid₂ = tid := by simpa using h₂
      rw [h₃] at hdep
      exact hnew hnd (hdb done tid rest hseq tid hdep htidseq)
  unfold processTarget
  cases hfind : dictFind S tid with
  | none => exact runInv_unloaded E S seq done tid st hfind hinv
  | some row =>
      have hload : (dictFind S tid).isSome = true := by rw [hfind]; rfl
      dsimp only
      by_cases hskip :
          ((buildGraph S tid).any (fun d => st.failedSet.contains d)) = true
      · rw [if_pos hskip]
        exact runInv_step_ok E S seq done tid st st.cache
          BOutcome.depSkipped hload (by decide)
          (fun _ => (skipCond_true_iff S st.failedSet tid).mp hskip)
          (fun hne => absurd rfl hne) hnew hinv
      · rw [if_neg hskip]
        have hnoskipf : ∀ d ∈ buildGraph S tid, d ∉ st.failedSet := by
          intro d hd hdf
          exact hskip
            ((skipCond_true_iff S st.failedSet tid).mpr ⟨d, hd, hdf⟩)
        by_cases hlock : (row.locked && !E.dryRun && !(E.confirmYes tid))
          = true
        · rw [if_pos hlock]
          exact runInv_step_ok E S seq done tid st st.cache
            BOutcome.notConfirmed hload (by decide)
            (fun h => absurd h (by decide)) (fun _ => hnoskipf) hnew hinv
        · rw [if_neg hlock]
          cases hbt : buildTargetRun E S st.cache tid row with
          | mk o c₂ =>
              cases o with
              | none =>
                  dsimp only
                  have hchar := buildTargetRun_none E S st.cache tid row
                    (by rw [hbt])
                  exact runInv_step_failed E S seq done tid st c₂ hload
                    ⟨hchar.1, hchar.2.1, row, hfind, hchar.2.2⟩
                    hnoskipf hnew hfresh hinv
              | some out =>
                  dsimp only
                  have hchar := buildTargetRun_some E S st.cache tid row
                    out (by rw [hbt])
                  exact runInv_step_ok E S seq done tid st c₂ out hload
                    hchar.2 (fun h => absurd h hchar.1)
                    (fun _ => hnoskipf) hnew hinv

theorem foldl_inv (E : RunEnv) (S : Dict BRow) (seq : List String) :
    ∀ (rest done : List String) (st : BuildState),
      seq = done ++ rest → RunInv E S seq done st →
      RunInv E S seq (done ++ rest)
        (rest.foldl (processTarget E S) st) := by
  intro rest
  induction rest with
  | nil =>
      intro done st _ hinv
      simpa using hinv
  | cons tid rest ih =>
      intro done st hseq hinv
      have hstep := processTarget_inv E S seq done rest tid st hseq hinv
      have hseq₂ : seq = (done ++ [tid]) ++ rest := by
        rw [hseq]
        simp
      have hres := ih (done ++ [tid]) (processTarget E S st tid)
        hseq₂ hstep
      rw [List.append_assoc] at hres
      simpa using hres

theorem runLevels_eq_foldl (E : RunEnv) (S : Dict BRow) :
    ∀ (levels : List (List String)) (st : BuildState),
      runLevels E S st levels =
        levels.flatten.foldl (processTarget E S) st := by
  intro levels
  induction levels with
  | nil => intro st; rfl
  | cons lvl rest ih =>
      intro st
      rw [runLevels, ih, List.flatten_cons, List.foldl_append]

theorem runInv_init (E : RunEnv) (S : Dict BRow) (seq : List String)
    (cache₀ : BuildCache) :
    RunInv E S seq [] { failedSet := [], cache := cache₀, trace := [] } :=
  ⟨fun x => by simp, fun e he => by simp at he,
    fun tid h => by simp at h, fun tid out h => by simp at h,
    fun tid h => by simp at h,
    fun _ => ⟨by simp, fun tid h => by simp at h⟩⟩

theorem buildRun_inv (E : RunEnv) (S : Dict BRow) (cache₀ : BuildCache)
    (ts : List String) :
    RunInv E S ((getBuildOrder S ts).flatten)
      ((getBuildOrder S ts).flatten) (buildRun E S cache₀ ts).1 := by
  have hres := foldl_inv E S ((getBuildOrder S ts).flatten)
    ((getBuildOrder S ts).flatten) []
    { failedSet := [], cache := cache₀, trace := [] } (by simp)
    (runInv_init E S _ cache₀)
  unfold buildRun
  dsimp only
  rw [runLevels_eq_foldl]
  simpa using hres

/-! ### Claims C3 and C4: scheduler behaviour on failures -/

/-- C3, amended for the build-system scheduler (`BuildSystem.build`;
the data-pipeline scheduler violates the claim, see
`C3_pipeline_aborts_on_failure`): the run's verdict is `true` exactly
when no row ended in the failed state, and every loaded row of the
build order is processed — it receives an outcome, and when none of its
direct dependencies ended failed that outcome is not a dependency skip,
i.e. its executor was invoked or its cache consulted (or it was a
declined locked confirmation). A single failure never aborts the run. -/
theorem C3_scheduler_never_aborts (E : RunEnv) (S : Dict BRow)
    (cache₀ : BuildCache) (ts : List String) :
    ((buildRun E S cache₀ ts).2 = true ↔
      ∀ tid, (tid, BOutcome.failed) ∉ runTrace E S cache₀ ts) ∧
    (∀ tid ∈ (getBuildOrder S ts).flatten,
      (dictFind S tid).isSome = true →
      ∃ out, (tid, out) ∈ runTrace E S cache₀ ts ∧
        ((∀ d ∈ buildGraph S tid,
            (d, BOutcome.failed) ∉ runTrace E S cache₀ ts) →
          out ≠ BOutcome.depSkipped)) := by
  obtain ⟨I1, I2, I3, I4, I5, IC⟩ := buildRun_inv E S cache₀ ts
  constructor
  · have hv : (buildRun E S cache₀ ts).2 =
        (buildRun E S cache₀ ts).1.failedSet.isEmpty := rfl
    rw [hv]
    constructor
    · intro hemp tid htid
      have hnil : (buildRun E S cache₀ ts).1.failedSet = [] :=
        List.isEmpty_iff.mp hemp
      have hmem := (I1 tid).mpr htid
      rw [hnil] at hmem
      simp at hmem
    · intro hall
      apply List.isEmpty_iff.mpr
      apply List.eq_nil_iff_forall_not_mem.mpr
      intro x hx
      exact hall x ((I1 x).mp hx)
  · intro tid htid hload
    obtain ⟨out, hout⟩ := I3 tid htid hload
    refine ⟨out, hout, ?_⟩
    intro hnof hds
    obtain ⟨d, hd, hdf⟩ := I4 tid out hout hds
    exact hnof d hd hdf

/-- C4, amended: on an acyclic snapshot, a `failed` outcome arises only
from a genuine executor fault of that row (failure draw fired, row
unlocked, not a dry run); a dependency-skip outcome arises only when
some DIRECT dependency ended failed; and, conversely, every scheduled
loaded row with a failed direct dependency is dep-skipped. Because
skipped rows are never added to `failed_targets`, skipping does not
propagate transitively: a descendant whose direct dependencies all
avoided the failed state is executed normally (see
`C4_skip_not_transitive`). -/
theorem C4_failure_propagation (E : RunEnv) (S : Dict BRow)
    (cache₀ : BuildCache) (ts : List String) (rank : String → Nat)
    (hacyc : RankAcyclicOn (buildGraph S) (buildableList S ts) rank) :
    (∀ tid, (tid, BOutcome.depSkipped) ∈ runTrace E S cache₀ ts →
      ∃ d ∈ buildGraph S tid,
        (d, BOutcome.failed) ∈ runTrace E S cache₀ ts) ∧
    (∀ tid, (tid, BOutcome.failed) ∈ runTrace E S cache₀ ts →
      E.execFails tid = true ∧ E.dryRun = false ∧
      ∃ row, dictFind S tid = some row ∧ row.locked = false) ∧
    (∀ tid ∈ (getBuildOrder S ts).flatten,
      (dictFind S tid).isSome = true →
      (∃ d ∈ buildGraph S tid,
        (d, BOutcome.failed) ∈ runTrace E S cache₀ ts) →
      (tid, BOutcome.depSkipped) ∈ runTrace E S cache₀ ts) := by
  obtain ⟨I1, I2, I3, I4, I5, IC⟩ := buildRun_inv E S cache₀ ts
  have hnodupR : (buildableList S ts).Nodup :=
    (List.nodup_dedup _).filter _
  obtain ⟨hperm, hlvl⟩ := kahnF_props (buildGraph S) rank
    (buildableList S ts).length (buildableList S ts) hnodupR hacyc
    le_rfl
  have hGB : getBuildOrder S ts = kahnLevelsF (buildGraph S)
      (buildableList S ts).length (buildableList S ts) := rfl
  rw [← hGB] at hperm hlvl
  have hflatnd : ((getBuildOrder S ts).flatten).Nodup :=
    (List.Perm.nodup_iff hperm).mpr hnodupR
  have hdb : DepsBefore (buildGraph S) ((getBuildOrder S ts).flatten) :=
    depsBefore_of_levels (buildGraph S) (buildableList S ts)
      (getBuildOrder S ts) hperm hflatnd hlvl
  obtain ⟨_, IC7⟩ := IC ⟨hdb, hflatnd⟩
  exact ⟨fun tid hmem => I4 tid BOutcome.depSkipped hmem rfl, I5, IC7⟩

/-- Raw rows of the failure-chain scenario: `b` depends on `a`, `c` on
`b`. -/
def c4Rows : List CliRaw :=
  [{ id := some "a" },
   { id := some "b", depends := .list ["a"] },
   { id := some "c", depends := .list ["b"] }]

/-- The loaded chain snapshot. -/
def c4S : Dict BRow := buildLoadTargets c4Rows

/-- A rank witnessing the chain's acyclicity. -/
def c4Rank (n : String) : Nat :=
  if n = "a" then 0 else if n = "b" then 1 else 2

/-- The run environment of the scenario: only row `a`'s executor
faults; confirmations are granted; a real run (no dry run, no force)
with a trivial digest. -/
def c34Env : RunEnv :=
  { h := fun _ => "h", pd := [], execFails := fun s => s == "a",
    confirmYes := fun _ => true, outHash := fun _ => "deadbeef",
    now := 0, dryRun := false, force := false }

/-- Counterexample for C4 as stated: in the chain `a ← b ← c`, when
`a`'s executor faults, `b` is dep-skipped, but the transitive
descendant `c` — a member of `descendant_closure(a)` — is built
normally, because skipped rows are not added to `failed_targets`. The
run's verdict is still `false`. -/
theorem C4_skip_not_transitive :
    ("a", BOutcome.failed) ∈ runTrace c34Env c4S [] ["c"] ∧
    ("b", BOutcome.depSkipped) ∈ runTrace c34Env c4S [] ["c"] ∧
    ("c", BOutcome.built) ∈ runTrace c34Env c4S [] ["c"] ∧
    RevReach c4S "a" "c" ∧
    (buildRun c34Env c4S [] ["c"]).2 = false := by
  refine ⟨by decide, by decide, by decide, ?_, by decide⟩
  exact RevReach.step "b" "c" (RevReach.direct "b" (by decide)) (by decide)

/-- Witness for C3 at the chain scenario: the amended theorem applies
and yields that `c` (whose only direct dependency `b` did not end
failed) got a non-skip outcome, and that the verdict is `false` because
`a` ended failed. -/
theorem C3_scheduler_never_aborts_witness :
    (∃ out, ("c", out) ∈ runTrace c34Env c4S [] ["c"] ∧
      out ≠ BOutcome.depSkipped) ∧
    (buildRun c34Env c4S [] ["c"]).2 ≠ true := by
  obtain ⟨hverdict, hall⟩ := C3_scheduler_never_aborts c34Env c4S [] ["c"]
  constructor
  · obtain ⟨out, hmem, hns⟩ := hall "c" (by decide) (by decide)
    exact ⟨out, hmem, hns (by decide)⟩
  · intro htrue
    exact (hverdict.mp htrue) "a" (by decide)

/-- Witness for C4 at the chain scenario: the acyclicity hypothesis
holds for `c4Rank`, and the amended theorem yields that `b` (direct
dependent of the faulted `a`) is dep-skipped. -/
theorem C4_failure_propagation_witness :
    ("b", BOutcome.depSkipped) ∈ runTrace c34Env c4S [] ["c"] := by
  obtain ⟨h₁, h₂, h₃⟩ := C4_failure_propagation c34Env c4S [] ["c"]
    c4Rank (by decide)
  exact h₃ "b" (by decide) (by decide) ⟨"a", by decide, by decide⟩

/-! ### Cycle detection (`BuildSystem.detect_cycles`,
`TopDownCLI._detect_cycles`)

Both sources hold the identical DFS: a global `visited` set, a
`rec_stack` holding exactly the nodes of the current `path` (the
`add`/`append` and `remove`/`pop` operations are paired), and a cycle
`path[path.index(neighbor):] + [neighbor]` recorded for every back
edge. `rec_stack` is therefore represented by membership in the
explicit path, the recursion is fuel-indexed, and the running
`(visited, cycles)` pair is threaded explicitly. -/

/-- `path[path.index(x):]`: the tail of `path` from the first
occurrence of `x`. -/
def dropToFirst (x : String) : List String → List String
  | [] => []
  | y :: ys => if y = x then y :: ys else dropToFirst x ys

/-- The neighbor loop of the `dfs` closure, abstracted over the
recursive call: an unvisited neighbor is descended into; a visited
neighbor on the current path records the back-edge cycle; any other
visited neighbor is ignored. -/
def dfsFoldWith
    (rec : String → List String →
      List String × List (List String) →
      List String × List (List String))
    (path₂ : List String) :
    List String → List String × List (List String) →
    List String × List (List String)
  | [], st => st
  | n :: ns, st =>
      if n ∈ st.1 then
        if n ∈ path₂ then
          dfsFoldWith rec path₂ ns
            (st.1, st.2 ++ [dropToFirst n path₂ ++ [n]])
        else dfsFoldWith rec path₂ ns st
      else dfsFoldWith rec path₂ ns (rec n path₂ st)

/-- The `dfs` closure: mark the node visited, extend the path, scan
the neighbors (fuel-indexed; the wrapper supplies fuel covering the
recursion depth, which adds a fresh visited node at every level). -/
def dfsF (g : String → List String) :
    Nat → String → List String →
    List String × List (List String) →
    List String × List (List String)
  | 0, _, _, st => st
  | fuel + 1, node, path, st =>
      dfsFoldWith (dfsF g fuel) (path ++ [node]) (g node)
        (st.1 ++ [node], st.2)

/-- The driver loop of `detect_cycles`: start a DFS at every stored
row not yet visited, in stored order. -/
def detectCyclesGo (g : String → List String) (fuel : Nat) :
    List String → List String × List (List String) →
    List String × List (List String)
  | [], st => st
  | n :: ns, st =>
      if n ∈ st.1 then detectCyclesGo g fuel ns st
      else detectCyclesGo g fuel ns (dfsF g fuel n [] st)

/-- `BuildSystem.detect_cycles` (the CLI's `_detect_cycles` is
textually identical on its graph): DFS from every stored row. The
recursion depth never exceeds the number of visitable nodes (stored
ids plus declared dependency ids), which bounds the fuel. -/
def detectCycles (targets : Dict BRow) : List (List String) :=
  (detectCyclesGo (buildGraph targets)
    (targets.length + totalDeps targets + 1) (dictKeys targets)
    ([], [])).2

/-! ### Walks and the spec's closed-walk notion -/

/-- Every consecutive pair of the list is a forward edge of `g`. -/
def IsWalk (g : String → List String) : List String → Prop
  | [] => True
  | [_] => True
  | x :: y :: rest => y ∈ g x ∧ IsWalk g (y :: rest)

/-- The spec's valid cycle: a closed walk of length at least two. -/
def SoundCycle (g : String → List String) (c : List String) : Prop :=
  IsWalk g c ∧ 2 ≤ c.length ∧ c.head? = c.getLast?

theorem isWalk_nil (g : String → List String) : IsWalk g [] := by
  simp [IsWalk]

theorem isWalk_one (g : String → List String) (x : String) :
    IsWalk g [x] := by
  simp [IsWalk]

theorem isWalk_cons_cons (g : String → List String) (x y : String)
    (rest : List String) :
    IsWalk g (x :: y :: rest) ↔ y ∈ g x ∧ IsWalk g (y :: rest) := by
  simp [IsWalk]

theorem isWalk_append_right (g : String → List String) :
    ∀ (l₁ l₂ : List String), IsWalk g (l₁ ++ l₂) → IsWalk g l₂ := by
  intro l₁
  induction l₁ with
  | nil => exact fun l₂ h => h
  | cons x l₁ ih =>
      intro l₂ h
      apply ih
      cases hl : l₁ ++ l₂ with
      | nil => exact isWalk_nil g
      | cons y rest =>
          rw [List.cons_append, hl] at h
          exact ((isWalk_cons_cons g x y rest).mp h).2

theorem isWalk_snoc_edge (g : String → List String) :
    ∀ (p : List String) (node n : String),
      IsWalk g (p ++ [node]) → n ∈ g node →
      IsWalk g (p ++ [node] ++ [n]) := by
  intro p
  induction p with
  | nil =>
      intro node n _ hn
      exact (isWalk_cons_cons g node n []).mpr ⟨hn, isWalk_one g n⟩
  | cons x p ih =>
      intro node n hw hn
      cases p with
      | nil =>
          have hw₂ := (isWalk_cons_cons g x node []).mp hw
          exact (isWalk_cons_cons g x node [n]).mpr
            ⟨hw₂.1, (isWalk_cons_cons g node n []).mpr
              ⟨hn, isWalk_one g n⟩⟩
      | cons y p₂ =>
          have hw₂ := (isWalk_cons_cons g x y (p₂ ++ [node])).mp hw
          have hrec := ih node n hw₂.2 hn
          have hgoal : IsWalk g (x :: ((y :: p₂) ++ [node] ++ [n])) :=
            (isWalk_cons_cons g x y (p₂ ++ [node] ++ [n])).mpr
              ⟨hw₂.1, by simpa using hrec⟩
          simpa using hgoal

/-- A nonempty suffix of a list ending in `node` also ends in
`node`. -/
theorem suffix_ends_same (p : List String) (node : String) :
    ∀ (p₀ l₂ : List String), p ++ [node] = p₀ ++ l₂ → l₂ ≠ [] →
      ∃ q, l₂ = q ++ [node] := by
  intro p₀ l₂ heq hne
  rcases List.eq_nil_or_concat l₂ with h | ⟨q, a, hqa⟩
  · exact absurd h hne
  · rw [List.concat_eq_append] at hqa
    refine ⟨q, ?_⟩
    rw [hqa] at heq
    have h₂ : p ++ [node] = (p₀ ++ q) ++ [a] := by
      rw [heq, List.append_assoc]
    have h₃ := List.append_inj' h₂ rfl
    rw [hqa]
    have : node = a := by
      have := h₃.2
      simpa using this
    rw [this]

/-- `dropToFirst` splits its list at the first occurrence. -/
theorem dropToFirst_spec (x : String) :
    ∀ (l : List String), x ∈ l →
      ∃ p t, l = p ++ (x :: t) ∧ dropToFirst x l = x :: t := by
  intro l
  induction l with
  | nil => intro h; cases h
  | cons y ys ih =>
      intro hx
      by_cases hyx : y = x
      · refine ⟨[], ys, by rw [hyx]; rfl, ?_⟩
        rw [dropToFirst, if_pos hyx, hyx]
      · have hx₂ : x ∈ ys := by
          rcases List.mem_cons.mp hx with h | h
          · exact absurd h.symm hyx
          · exact h
        obtain ⟨p, t, hl, hd⟩ := ih hx₂
        refine ⟨y :: p, t, by rw [List.cons_append, ← hl], ?_⟩
        rw [dropToFirst, if_neg hyx, hd]

theorem getLast?_concat_eq (l : List String) (a : String) :
    (l ++ [a]).getLast? = some a := by
  induction l with
  | nil => rfl
  | cons x rest ih =>
      rw [List.cons_append, List.getLast?_cons, ih]
      rfl

/-- A freshly recorded back-edge cycle is a sound closed walk. -/
theorem backEdge_cycle_sound (g : String → List String)
    (p : List String) (node n : String)
    (hw : IsWalk g (p ++ [node])) (hn : n ∈ g node)
    (hmem : n ∈ p ++ [node]) :
    SoundCycle g (dropToFirst n (p ++ [node]) ++ [n]) := by
  obtain ⟨p₀, t, hsplit, hdrop⟩ := dropToFirst_spec n (p ++ [node]) hmem
  obtain ⟨q, hq⟩ := suffix_ends_same p node p₀ (n :: t) hsplit (by simp)
  rw [hdrop, hq]
  refine ⟨?_, ?_, ?_⟩
  · -- walk: the suffix q ++ [node] is a walk, extended by the edge to n
    have hwsuf : IsWalk g (q ++ [node]) := by
      rw [← hq]
      exact isWalk_append_right g p₀ (n :: t) (by rw [← hsplit]; exact hw)
    exact isWalk_snoc_edge g q node n hwsuf hn
  · simp
  · rw [← hq]
    rw [getLast?_concat_eq (n :: t) n]
    rfl

/-! ### Positions and the finish-order argument -/

/-- Index of the first occurrence (a structural `list.index`). -/
def posIn (F : List String) (u : String) : Nat :=
  match F with
  | [] => 0
  | x :: xs => if x = u then 0 else posIn xs u + 1

/-- `v` occurs strictly before `u` in `F`. -/
def ListBefore (F : List String) (v u : String) : Prop :=
  ∃ pre post, F = pre ++ u :: post ∧ v ∈ pre

/-- Every edge out of a finished node points to a node finished
strictly earlier. -/
def EdgeProp (g : String → List String) (F : List String) : Prop :=
  ∀ u ∈ F, ∀ v ∈ g u, ListBefore F v u

theorem listBefore_append (F G : List String) (v u : String)
    (h : ListBefore F v u) : ListBefore (F ++ G) v u := by
  obtain ⟨pre, post, hF, hv⟩ := h
  exact ⟨pre, post ++ G, by rw [hF]; simp, hv⟩

theorem edgeProp_nil (g : String → List String) : EdgeProp g [] := by
  intro u hu
  cases hu

theorem posIn_split (u : String) :
    ∀ (pre post : List String), (pre ++ u :: post).Nodup →
      posIn (pre ++ u :: post) u = pre.length := by
  intro pre
  induction pre with
  | nil =>
      intro post _
      rw [List.nil_append, posIn]
      simp
  | cons x pre ih =>
      intro post hnd
      rw [List.cons_append, posIn]
      have hx : x ≠ u := by
        intro h
        have := (List.nodup_cons.mp (by rw [← List.cons_append]; exact hnd)).1
        apply this
        rw [h]
        exact List.mem_append_right _ (List.mem_cons_self _ _)
      rw [if_neg hx, ih post (List.nodup_cons.mp (by
        rw [← List.cons_append]; exact hnd)).2]
      rfl

theorem posIn_lt_of_mem_prefix (v : String) :
    ∀ (pre rest : List String), v ∈ pre →
      posIn (pre ++ rest) v < pre.length := by
  intro pre
  induction pre with
  | nil => intro rest h; cases h
  | cons x pre ih =>
      intro rest hv
      rw [List.cons_append, posIn]
      by_cases hx : x = v
      · rw [if_pos hx]
        simp
      · rw [if_neg hx]
        have hv₂ : v ∈ pre := by
          rcases List.mem_cons.mp hv with h | h
          · exact absurd h.symm hx
          · exact h
        have := ih rest hv₂
        simp only [List.length_cons]
        omega

theorem posIn_lt_of_listBefore (F : List String) (v u : String)
    (hnd : F.Nodup) (h : ListBefore F v u) : posIn F v < posIn F u := by
  obtain ⟨pre, post, hF, hv⟩ := h
  rw [hF]
  rw [hF] at hnd
  rw [posIn_split u pre post hnd]
  exact posIn_lt_of_mem_prefix v pre (u :: post) hv

/-- Along a walk whose edge sources all lie in `F`, positions in `F`
strictly decrease (given `EdgeProp`). -/
theorem walk_pos_lt (g : String → List String) (F : List String)
    (hnd : F.Nodup) (hEP : EdgeProp g F)
    (hsrc : ∀ u v, v ∈ g u → u ∈ F) :
    ∀ (t : List String) (x y : String), IsWalk g (x :: (t ++ [y])) →
      posIn F y < posIn F x := by
  intro t
  induction t with
  | nil =>
      intro x y hw
      have hxy : y ∈ g x :=
        ((isWalk_cons_cons g x y []).mp (by simpa using hw)).1
      exact posIn_lt_of_listBefore F y x hnd
        (hEP x (hsrc x y hxy) y hxy)
  | cons z t ih =>
      intro x y hw
      have hw₂ := (isWalk_cons_cons g x z (t ++ [y])).mp
        (by simpa using hw)
      have h₁ : posIn F z < posIn F x :=
        posIn_lt_of_listBefore F z x hnd
          (hEP x (hsrc x z hw₂.1) z hw₂.1)
      have h₂ : posIn F y < posIn F z := ih z y hw₂.2
      omega

/-- A closed walk of length at least two decomposes as
`x :: t ++ [x]`. -/
theorem closed_decomp (c : List String) (hlen : 2 ≤ c.length)
    (hcl : c.head? = c.getLast?) : ∃ x t, c = x :: (t ++ [x]) := by
  cases c with
  | nil => simp at hlen
  | cons x rest =>
      have hne : rest ≠ [] := by
        intro h
        rw [h] at hlen
        simp at hlen
      refine ⟨x, rest.dropLast, ?_⟩
      have hdl := List.dropLast_append_getLast hne
      have hx : rest.getLast hne = x := by
        have h₂ : (x :: rest).getLast? =
            some ((x :: rest).getLast (by simp)) :=
          List.getLast?_eq_getLast _ _
        rw [← hcl] at h₂
        have h₃ : (x :: rest).getLast (by simp) = rest.getLast hne :=
          List.getLast_cons hne
        rw [h₃] at h₂
        have : x = rest.getLast hne := by
          simpa using h₂
        exact this.symm
      rw [← hx]
      rw [hdl]

/-! ### Instrumented DFS: the same computation logging finish order -/

/-- The DFS state plus a proof-side log of the order in which `dfs`
calls complete (`finished`); `visited` and `cycles` are exactly the
code's (see `dfsI_proj`). -/
structure DfsSt where
  visited : List String
  finished : List String
  cycles : List (List String)
deriving DecidableEq, Repr

/-- `dfsFoldWith`, instrumented. -/
def dfsIFoldWith (rec : String → List String → DfsSt → DfsSt)
    (path₂ : List String) : List String → DfsSt → DfsSt
  | [], st => st
  | n :: ns, st =>
      if n ∈ st.visited then
        if n ∈ path₂ then
          dfsIFoldWith rec path₂ ns
            { st with cycles :=
                st.cycles ++ [dropToFirst n path₂ ++ [n]] }
        else dfsIFoldWith rec path₂ ns st
      else dfsIFoldWith rec path₂ ns (rec n path₂ st)

/-- `dfsF`, instrumented: the node is appended to `finished` when its
call completes. -/
def dfsI (g : String → List String) :
    Nat → String → List String → DfsSt → DfsSt
  | 0, _, _, st => st
  | fuel + 1, node, path, st =>
      let st₂ := dfsIFoldWith (dfsI g fuel) (path ++ [node]) (g node)
        { st with visited := st.visited ++ [node] }
      { st₂ with finished := st₂.finished ++ [node] }

/-- `detectCyclesGo`, instrumented. -/
def detectCyclesIGo (g : String → List String) (fuel : Nat) :
    List String → DfsSt → DfsSt
  | [], st => st
  | n :: ns, st =>
      if n ∈ st.visited then detectCyclesIGo g fuel ns st
      else detectCyclesIGo g fuel ns (dfsI g fuel n [] st)

theorem dfsI_proj (g : String → List String) :
    ∀ (fuel : Nat) (node : String) (path : List String) (st : DfsSt),
      ((dfsI g fuel node path st).visited,
        (dfsI g fuel node path st).cycles) =
        dfsF g fuel node path (st.visited, st.cycles) := by
  intro fuel
  induction fuel with
  | zero => intro node path st; rfl
  | succ fuel ih =>
      intro node path st
      have hfold : ∀ (ns : List String) (st₂ : DfsSt),
          ((dfsIFoldWith (dfsI g fuel) (path ++ [node]) ns st₂).visited,
            (dfsIFoldWith (dfsI g fuel) (path ++ [node]) ns st₂).cycles) =
            dfsFoldWith (dfsF g fuel) (path ++ [node]) ns
              (st₂.visited, st₂.cycles) := by
        intro ns
        induction ns with
        | nil => intro st₂; rfl
        | cons n ns ihn =>
            intro st₂
            rw [dfsIFoldWith, dfsFoldWith]
            dsimp only
            by_cases hv : n ∈ st₂.visited
            · rw [if_pos hv, if_pos hv]
              by_cases hp : n ∈ path ++ [node]
              · rw [if_pos hp, if_pos hp]
                exact ihn _
              · rw [if_neg hp, if_neg hp]
                exact ihn _
            · rw [if_neg hv, if_neg hv]
              have hrec := ih n (path ++ [node]) st₂
              rw [← hrec]
              exact ihn _
      rw [dfsI, dfsF]
      dsimp only
      exact hfold (g node) { st with visited := st.visited ++ [node] }

theorem detectCyclesIGo_proj (g : String → List String) (fuel : Nat) :
    ∀ (ns : List String) (st : DfsSt),
      ((detectCyclesIGo g fuel ns st).visited,
        (detectCyclesIGo g fuel ns st).cycles) =
        detectCyclesGo g fuel ns (st.visited, st.cycles) := by
  intro ns
  induction ns with
  | nil => intro st; rfl
  | cons n ns ih =>
      intro st
      rw [detectCyclesIGo, detectCyclesGo]
      dsimp only
      by_cases hv : n ∈ st.visited
      · rw [if_pos hv, if_pos hv]
        exact ih st
      · rw [if_neg hv, if_neg hv]
        have hrec := dfsI_proj g fuel n [] st
        rw [← hrec]
        exact ih _

theorem nodup_snoc {α : Type} (l : List α) (a : α) (h : l.Nodup)
    (ha : a ∉ l) : (l ++ [a]).Nodup := by
  rw [List.nodup_append]
  refine ⟨h, by simp, ?_⟩
  intro x hx hxa
  have hxa₂ : x = a := by simpa using hxa
  rw [hxa₂] at hx
  exact ha hx

theorem nodup_append_right_not_mem {α : Type} (l₁ l₂ : List α)
    (h : (l₁ ++ l₂).Nodup) : ∀ x ∈ l₂, x ∉ l₁ := by
  rw [List.nodup_append] at h
  intro x hx hx₁
  exact h.2.2 hx₁ hx

/-- Well-formedness of a DFS state relative to the current path and a
node universe `U`: visited nodes lie in `U` without duplicates; the
path is visited; every visited node is finished or on the path; the
finished log is a duplicate-free part of the visited set disjoint from
the path. -/
def DfsWF (U path : List String) (st : DfsSt) : Prop :=
  (∀ x ∈ st.visited, x ∈ U) ∧
  st.visited.Nodup ∧
  (∀ x ∈ path, x ∈ st.visited) ∧
  (∀ x ∈ st.visited, x ∈ st.finished ∨ x ∈ path) ∧
  (∀ x ∈ st.finished, x ∈ st.visited) ∧
  st.finished.Nodup ∧
  (∀ x ∈ path, x ∉ st.finished)

/-- Specification of a completed `dfs` call at a given fuel: the node
and a set of fresh nodes become visited; exactly the fresh nodes are
appended to the finished log, the node last; cycles only grow; the
state stays well-formed; if no cycle was recorded (relative to the
baseline `C₀`) the finish order keeps satisfying `EdgeProp`; and every
recorded cycle is sound. -/
def DfsSpec (g : String → List String) (U : List String)
    (C₀ : List (List String)) (fuel : Nat) : Prop :=
  ∀ (n : String) (path₂ : List String) (st₂ : DfsSt), n ∈ U →
    n ∉ st₂.visited →
    DfsWF U path₂ st₂ →
    IsWalk g (path₂ ++ [n]) →
    U.length + 1 ≤ fuel + st₂.visited.length →
    (∃ Δ₀, st₂.cycles = C₀ ++ Δ₀) →
    (st₂.cycles = C₀ → EdgeProp g st₂.finished) →
    (∃ V₂, (dfsI g fuel n path₂ st₂).visited =
        st₂.visited ++ n :: V₂) ∧
    (∃ F₂, (dfsI g fuel n path₂ st₂).finished =
        st₂.finished ++ F₂ ++ [n] ∧
        (∀ x ∈ F₂ ++ [n], x ∉ st₂.visited)) ∧
    (∃ Δ, (dfsI g fuel n path₂ st₂).cycles = st₂.cycles ++ Δ) ∧
    DfsWF U path₂ (dfsI g fuel n path₂ st₂) ∧
    ((dfsI g fuel n path₂ st₂).cycles = C₀ →
      EdgeProp g (dfsI g fuel n path₂ st₂).finished) ∧
    (∀ c ∈ (dfsI g fuel n path₂ st₂).cycles,
      c ∈ st₂.cycles ∨ SoundCycle g c)

/-- The neighbor fold inherits the call specification: fresh visits
and finishes accumulate, well-formedness is preserved, every scanned
neighbor is finished when no cycle was recorded, and all recorded
cycles are sound. -/
theorem dfsIFold_props (g : String → List String) (U : List String)
    (hU : ∀ u, ∀ v ∈ g u, v ∈ U) (C₀ : List (List String))
    (fuel : Nat) (node : String) (path : List String)
    (hwalk : IsWalk g (path ++ [node]))
    (hrec : DfsSpec g U C₀ fuel) :
    ∀ (ns : List String), (∀ n ∈ ns, n ∈ g node) →
    ∀ (st₂ : DfsSt),
      DfsWF U (path ++ [node]) st₂ →
      U.length + 1 ≤ fuel + st₂.visited.length →
      (∃ Δ₀, st₂.cycles = C₀ ++ Δ₀) →
      (st₂.cycles = C₀ → EdgeProp g st₂.finished) →
      (∃ V₂, (dfsIFoldWith (dfsI g fuel) (path ++ [node]) ns
          st₂).visited = st₂.visited ++ V₂ ∧
          ∀ x ∈ V₂, x ∉ st₂.visited) ∧
      (∃ F₂, (dfsIFoldWith (dfsI g fuel) (path ++ [node]) ns
          st₂).finished = st₂.finished ++ F₂ ∧
          ∀ x ∈ F₂, x ∉ st₂.visited) ∧
      (∃ Δ, (dfsIFoldWith (dfsI g fuel) (path ++ [node]) ns
          st₂).cycles = st₂.cycles ++ Δ) ∧
      DfsWF U (path ++ [node])
        (dfsIFoldWith (dfsI g fuel) (path ++ [node]) ns st₂) ∧
      ((dfsIFoldWith (dfsI g fuel) (path ++ [node]) ns st₂).cycles =
          C₀ →
        EdgeProp g (dfsIFoldWith (dfsI g fuel) (path ++ [node]) ns
          st₂).finished) ∧
      ((dfsIFoldWith (dfsI g fuel) (path ++ [node]) ns st₂).cycles =
          C₀ →
        ∀ v ∈ ns, v ∈ (dfsIFoldWith (dfsI g fuel) (path ++ [node]) ns
          st₂).finished) ∧
      (∀ c ∈ (dfsIFoldWith (dfsI g fuel) (path ++ [node]) ns
          st₂).cycles, c ∈ st₂.cycles ∨ SoundCycle g c) := by
  intro ns
  induction ns with
  | nil =>
      intro _ st₂ hWF _ _ hEP
      refine ⟨⟨[], by simp [dfsIFoldWith], by simp⟩,
        ⟨[], by simp [dfsIFoldWith], by simp⟩,
        ⟨[], by simp [dfsIFoldWith]⟩, hWF, hEP, ?_, ?_⟩
      · intro _ v hv
        cases hv
      · intro c hc
        exact Or.inl hc
  | cons n ns ihn =>
      intro hns st₂ hWF hlen hbase hEP
      have hn : n ∈ g node := hns n (List.mem_cons_self _ _)
      have hns₂ : ∀ m ∈ ns, m ∈ g node :=
        fun m hm => hns m (List.mem_cons_of_mem _ hm)
      rw [dfsIFoldWith]
      by_cases hv : n ∈ st₂.visited
      · rw [if_pos hv]
        by_cases hp : n ∈ path ++ [node]
        · -- back edge: record the cycle and continue
          rw [if_pos hp]
          obtain ⟨Δ₀, hΔ₀⟩ := hbase
          have hsound : SoundCycle g
              (dropToFirst n (path ++ [node]) ++ [n]) :=
            backEdge_cycle_sound g path node n hwalk hn hp
          obtain ⟨hV, hF, hΔ, hWF₃, _, _, hsnd⟩ := ihn hns₂
            { st₂ with cycles := st₂.cycles ++
                [dropToFirst n (path ++ [node]) ++ [n]] }
            hWF hlen
            ⟨Δ₀ ++ [dropToFirst n (path ++ [node]) ++ [n]],
              by rw [hΔ₀]; simp⟩
            (by
              intro hc
              exfalso
              have hlen₂ := congrArg List.length hc
              rw [hΔ₀] at hlen₂
              simp only [List.length_append, List.length_cons,
                List.length_nil] at hlen₂
              omega)
          obtain ⟨Δ₂, hΔ₂⟩ := hΔ
          have hcyc : (dfsIFoldWith (dfsI g fuel) (path ++ [node]) ns
              { st₂ with cycles := st₂.cycles ++
                [dropToFirst n (path ++ [node]) ++ [n]] }).cycles =
              st₂.cycles ++
                ([dropToFirst n (path ++ [node]) ++ [n]] ++ Δ₂) := by
            rw [hΔ₂]
            simp
          have hnotC₀ : (dfsIFoldWith (dfsI g fuel) (path ++ [node]) ns
              { st₂ with cycles := st₂.cycles ++
                [dropToFirst n (path ++ [node]) ++ [n]] }).cycles ≠
              C₀ := by
            intro hc
            rw [hcyc, hΔ₀] at hc
            have hlen₂ := congrArg List.length hc
            simp only [List.length_append, List.length_cons,
              List.length_nil] at hlen₂
            omega
          refine ⟨hV, hF, ⟨[dropToFirst n (path ++ [node]) ++ [n]] ++
            Δ₂, hcyc⟩, hWF₃, ?_, ?_, ?_⟩
          · intro hc
            exact absurd hc hnotC₀
          · intro hc
            exact absurd hc hnotC₀
          · intro c hc
            rcases hsnd c hc with hc₂ | hc₂
            · rcases List.mem_append.mp hc₂ with hc₃ | hc₃
              · exact Or.inl hc₃
              · have : c = dropToFirst n (path ++ [node]) ++ [n] := by
                  simpa using hc₃
                rw [this]
                exact Or.inr hsound
            · exact Or.inr hc₂
        · -- already finished neighbor: nothing changes
          rw [if_neg hp]
          obtain ⟨hV, hF, hΔ, hWF₃, hEP₃, hcov, hsnd⟩ :=
            ihn hns₂ st₂ hWF hlen hbase hEP
          refine ⟨hV, hF, hΔ, hWF₃, hEP₃, ?_, hsnd⟩
          intro hc v hvmem
          rcases List.mem_cons.mp hvmem with hveq | hvns
          · -- n itself: visited but not on the path, hence finished
            have hnf : n ∈ st₂.finished := by
              rcases hWF.2.2.2.1 n hv with h | h
              · exact h
              · exact absurd h hp
            obtain ⟨F₂, hF₂, _⟩ := hF
            rw [hveq, hF₂]
            exact List.mem_append_left _ hnf
          · exact hcov hc v hvns
      · -- unvisited neighbor: recursive DFS call
        rw [if_neg hv]
        obtain ⟨Δ₀, hΔ₀⟩ := hbase
        have hwalk₂ : IsWalk g ((path ++ [node]) ++ [n]) :=
          isWalk_snoc_edge g path node n hwalk hn
        obtain ⟨⟨V₂, hV₂⟩, ⟨F₂, hF₂, hF₂f⟩, ⟨Δc, hΔc⟩, hWF₂, hEP₂,
            hsnd₂⟩ :=
          hrec n (path ++ [node]) st₂ (hU node n hn) hv hWF hwalk₂
            hlen ⟨Δ₀, hΔ₀⟩ hEP
        have hsub : ∀ x ∈ st₂.visited,
            x ∈ (dfsI g fuel n (path ++ [node]) st₂).visited := by
          intro x hx
          rw [hV₂]
          exact List.mem_append_left _ hx
        have hlen₂ : U.length + 1 ≤ fuel +
            (dfsI g fuel n (path ++ [node]) st₂).visited.length := by
          have := congrArg List.length hV₂
          simp only [List.length_append, List.length_cons] at this
          omega
        obtain ⟨⟨V₃, hV₃, hV₃f⟩, ⟨F₃, hF₃, hF₃f⟩, ⟨Δ₃, hΔ₃⟩, hWF₃,
            hEP₃, hcov₃, hsnd₃⟩ :=
          ihn hns₂ (dfsI g fuel n (path ++ [node]) st₂) hWF₂ hlen₂
            ⟨Δ₀ ++ Δc, by rw [hΔc, hΔ₀]; simp⟩ hEP₂
        have hfreshV : ∀ x ∈ n :: V₂, x ∉ st₂.visited := by
          have hnd := hWF₂.2.1
          rw [hV₂] at hnd
          exact nodup_append_right_not_mem _ _ hnd
        refine ⟨?_, ?_, ?_, hWF₃, hEP₃, ?_, ?_⟩
        · refine ⟨n :: V₂ ++ V₃, ?_, ?_⟩
          · rw [hV₃, hV₂]
            simp
          · intro x hx
            rcases List.mem_append.mp hx with hx | hx
            · exact hfreshV x hx
            · intro hx₂
              exact hV₃f x hx (hsub x hx₂)
        · refine ⟨F₂ ++ [n] ++ F₃, ?_, ?_⟩
          · rw [hF₃, hF₂]
            simp
          · intro x hx
            rcases List.mem_append.mp hx with hx | hx
            · exact hF₂f x hx
            · intro hx₂
              exact hF₃f x hx (hsub x hx₂)
        · refine ⟨Δc ++ Δ₃, ?_⟩
          rw [hΔ₃, hΔc]
          simp
        · intro hc v hvmem
          rcases List.mem_cons.mp hvmem with hveq | hvns
          · have hnfin : n ∈
                (dfsI g fuel n (path ++ [node]) st₂).finished := by
              rw [hF₂]
              exact List.mem_append_right _ (List.mem_cons_self _ _)
            rw [hveq, hF₃]
            exact List.mem_append_left _ hnfin
          · exact hcov₃ hc v hvns
        · intro c hc
          rcases hsnd₃ c hc with hc₂ | hc₂
          · rcases hsnd₂ c hc₂ with hc₃ | hc₃
            · exact Or.inl hc₃
            · exact Or.inr hc₃
          · exact Or.inr hc₂

/-- Every fuel level satisfies the `dfs` call specification: the fuel
bound makes exhaustion unreachable, because each recursion level adds
a fresh visited node inside the universe. -/
theorem dfsI_spec (g : String → List String) (U : List String)
    (hU : ∀ u, ∀ v ∈ g u, v ∈ U) (C₀ : List (List String)) :
    ∀ (fuel : Nat), DfsSpec g U C₀ fuel := by
  intro fuel
  induction fuel with
  | zero =>
      intro n path₂ st₂ hnU hnv hWF _ hlen _ _
      exfalso
      have hsub : st₂.visited ⊆ U := fun x hx => hWF.1 x hx
      have hle : st₂.visited.length ≤ U.length :=
        (hWF.2.1.subperm hsub).length_le
      omega
  | succ fuel ih =>
      intro n path₂ st₂ hnU hnv hWF hwalk hlen hbase hEP
      have hnpath : n ∉ path₂ := by
        intro h
        exact hnv (hWF.2.2.1 n h)
      have hWF₁ : DfsWF U (path₂ ++ [n])
          { st₂ with visited := st₂.visited ++ [n] } := by
        obtain ⟨W1, W2, W3, W4, W5, W6, W7⟩ := hWF
        refine ⟨?_, ?_, ?_, ?_, ?_, W6, ?_⟩
        · intro x hx
          rcases List.mem_append.mp hx with hx | hx
          · exact W1 x hx
          · have hxn : x = n := by simpa using hx
            rw [hxn]
            exact hnU
        · exact nodup_snoc _ _ W2 hnv
        · intro x hx
          rcases List.mem_append.mp hx with hx | hx
          · exact List.mem_append_left _ (W3 x hx)
          · exact List.mem_append_right _ hx
        · intro x hx
          rcases List.mem_append.mp hx with hx | hx
          · rcases W4 x hx with h | h
            · exact Or.inl h
            · exact Or.inr (List.mem_append_left _ h)
          · exact Or.inr (List.mem_append_right _ hx)
        · intro x hx
          exact List.mem_append_left _ (W5 x hx)
        · intro x hx
          rcases List.mem_append.mp hx with hx | hx
          · exact W7 x hx
          · have hxn : x = n := by simpa using hx
            rw [hxn]
            intro hnf
            exact hnv (W5 n hnf)
      have hlen₁ : U.length + 1 ≤ fuel + (st₂.visited ++ [n]).length := by
        simp only [List.length_append, List.length_cons,
          List.length_nil]
        omega
      obtain ⟨⟨V₂, hV₂, hV₂f⟩, ⟨F₂, hF₂, hF₂f⟩, ⟨Δ, hΔ⟩, hWF₃, hEP₃,
          hcov₃, hsnd₃⟩ :=
        dfsIFold_props g U hU C₀ fuel n path₂ hwalk ih (g n)
          (fun m hm => hm) { st₂ with visited := st₂.visited ++ [n] }
          hWF₁ hlen₁ hbase hEP
      have hstep : dfsI g (fuel + 1) n path₂ st₂ =
          { dfsIFoldWith (dfsI g fuel) (path₂ ++ [n]) (g n)
              { st₂ with visited := st₂.visited ++ [n] } with
            finished := (dfsIFoldWith (dfsI g fuel) (path₂ ++ [n])
              (g n)
              { st₂ with visited := st₂.visited ++ [n] }).finished ++
              [n] } := rfl
      rw [hstep]
      dsimp only at hV₂ hF₂ hΔ ⊢
      have hnvis : n ∈ (dfsIFoldWith (dfsI g fuel) (path₂ ++ [n])
          (g n) { st₂ with visited := st₂.visited ++ [n] }).visited := by
        rw [hV₂]
        exact List.mem_append_left _
          (List.mem_append_right _ (List.mem_cons_self _ _))
      have hnfin : n ∉ (dfsIFoldWith (dfsI g fuel) (path₂ ++ [n])
          (g n) { st₂ with visited := st₂.visited ++ [n] }).finished :=
        hWF₃.2.2.2.2.2.2 n (List.mem_append_right _
          (List.mem_cons_self _ _))
      refine ⟨?_, ?_, ?_, ?_, ?_, ?_⟩
      · refine ⟨V₂, ?_⟩
        rw [hV₂]
        simp
      · refine ⟨F₂, ?_, ?_⟩
        · rw [hF₂]
        · intro x hx
          rcases List.mem_append.mp hx with hx | hx
          · intro hx₂
            exact hF₂f x hx (List.mem_append_left _ hx₂)
          · have hxn : x = n := by simpa using hx
            rw [hxn]
            exact hnv
      · exact ⟨Δ, hΔ⟩
      · obtain ⟨W1, W2, W3, W4, W5, W6, W7⟩ := hWF₃
        refine ⟨W1, W2, ?_, ?_, ?_, ?_, ?_⟩
        · intro x hx
          exact W3 x (List.mem_append_left _ hx)
        · intro x hx
          rcases W4 x hx with h | h
          · exact Or.inl (List.mem_append_left _ h)
          · rcases List.mem_append.mp h with h | h
            · exact Or.inr h
            · refine Or.inl (List.mem_append_right _ ?_)
              simpa using h
        · intro x hx
          rcases List.mem_append.mp hx with hx | hx
          · exact W5 x hx
          · have hxn : x = n := by simpa using hx
            rw [hxn]
            exact hnvis
        · exact nodup_snoc _ _ W6 hnfin
        · intro x hx
          intro hxf
          rcases List.mem_append.mp hxf with h | h
          · exact W7 x (List.mem_append_left _ hx) h
          · exact hnpath (by rw [← (by simpa using h : x = n)]; exact hx)
      · intro hc
        have hEP₄ := hEP₃ hc
        have hcov₄ := hcov₃ hc
        intro u hu v hv
        rcases List.mem_append.mp hu with hu | hu
        · exact listBefore_append _ _ v u (hEP₄ u hu v hv)
        · have hun : u = n := by simpa using hu
          rw [hun]
          refine ⟨(dfsIFoldWith (dfsI g fuel) (path₂ ++ [n]) (g n)
            { st₂ with visited := st₂.visited ++ [n] }).finished, [],
            rfl, ?_⟩
          rw [hun] at hv
          exact hcov₄ v hv
      · intro c hc
        exact hsnd₃ c hc

/-- The driver loop: every listed node ends in the finish log, the
state stays well-formed, the finish order satisfies `EdgeProp` when no
cycle was recorded, and every recorded cycle is sound. -/
theorem detectCyclesIGo_props (g : String → List String)
    (U : List String) (hU : ∀ u, ∀ v ∈ g u, v ∈ U)
    (C₀ : List (List String)) (fuel : Nat) :
    ∀ (ns : List String), (∀ n ∈ ns, n ∈ U) →
    ∀ (st : DfsSt),
      DfsWF U [] st →
      U.length + 1 ≤ fuel + st.visited.length →
      (∃ Δ₀, st.cycles = C₀ ++ Δ₀) →
      (st.cycles = C₀ → EdgeProp g st.finished) →
      (∃ F, (detectCyclesIGo g fuel ns st).finished =
        st.finished ++ F) ∧
      DfsWF U [] (detectCyclesIGo g fuel ns st) ∧
      (∃ Δ, (detectCyclesIGo g fuel ns st).cycles = st.cycles ++ Δ) ∧
      ((detectCyclesIGo g fuel ns st).cycles = C₀ →
        EdgeProp g (detectCyclesIGo g fuel ns st).finished) ∧
      (∀ n ∈ ns, n ∈ (detectCyclesIGo g fuel ns st).finished) ∧
      (∀ c ∈ (detectCyclesIGo g fuel ns st).cycles,
        c ∈ st.cycles ∨ SoundCycle g c) := by
  intro ns
  induction ns with
  | nil =>
      intro _ st hWF _ _ hEP
      refine ⟨⟨[], by simp [detectCyclesIGo]⟩, hWF,
        ⟨[], by simp [detectCyclesIGo]⟩, hEP, ?_, ?_⟩
      · intro n hn
        cases hn
      · intro c hc
        exact Or.inl hc
  | cons n ns ih =>
      intro hns st hWF hlen hbase hEP
      have hnU : n ∈ U := hns n (List.mem_cons_self _ _)
      have hns₂ : ∀ m ∈ ns, m ∈ U :=
        fun m hm => hns m (List.mem_cons_of_mem _ hm)
      rw [detectCyclesIGo]
      by_cases hv : n ∈ st.visited
      · rw [if_pos hv]
        have hnfin : n ∈ st.finished := by
          rcases hWF.2.2.2.1 n hv with h | h
          · exact h
          · cases h
        obtain ⟨⟨F, hF⟩, hWF₂, hΔ₂, hEP₂, hcov₂, hsnd₂⟩ :=
          ih hns₂ st hWF hlen hbase hEP
        refine ⟨⟨F, hF⟩, hWF₂, hΔ₂, hEP₂, ?_, hsnd₂⟩
        intro m hm
        rcases List.mem_cons.mp hm with hm | hm
        · rw [hm, hF]
          exact List.mem_append_left _ hnfin
        · exact hcov₂ m hm
      · rw [if_neg hv]
        have hwalk : IsWalk g ([] ++ [n]) := isWalk_one g n
        obtain ⟨Δ₀, hΔ₀⟩ := hbase
        obtain ⟨⟨V₂, hV₂⟩, ⟨F₂, hF₂, hF₂f⟩, ⟨Δc, hΔc⟩, hWF₂, hEP₂,
            hsnd₂⟩ :=
          dfsI_spec g U hU C₀ fuel n [] st hnU hv hWF hwalk hlen
            ⟨Δ₀, hΔ₀⟩ hEP
        have hlen₂ : U.length + 1 ≤ fuel +
            (dfsI g fuel n [] st).visited.length := by
          have := congrArg List.length hV₂
          simp only [List.length_append, List.length_cons] at this
          omega
        obtain ⟨⟨F₃, hF₃⟩, hWF₃, ⟨Δ₃, hΔ₃⟩, hEP₃, hcov₃, hsnd₃⟩ :=
          ih hns₂ (dfsI g fuel n [] st) hWF₂ hlen₂
            ⟨Δ₀ ++ Δc, by rw [hΔc, hΔ₀]; simp⟩ hEP₂
        refine ⟨?_, hWF₃, ?_, hEP₃, ?_, ?_⟩
        · refine ⟨F₂ ++ [n] ++ F₃, ?_⟩
          rw [hF₃, hF₂]
          simp
        · refine ⟨Δc ++ Δ₃, ?_⟩
          rw [hΔ₃, hΔc]
          simp
        · intro m hm
          rcases List.mem_cons.mp hm with hm | hm
          · have hnf : n ∈ (dfsI g fuel n [] st).finished := by
              rw [hF₂]
              exact List.mem_append_right _ (List.mem_cons_self _ _)
            rw [hm, hF₃]
            exact List.mem_append_left _ hnf
          · exact hcov₃ m hm
        · intro c hc
          rcases hsnd₃ c hc with hc₂ | hc₂
          · rcases hsnd₂ c hc₂ with hc₃ | hc₃
            · exact Or.inl hc₃
            · exact Or.inr hc₃
          · exact Or.inr hc₂

/-- The visitable universe of a snapshot: stored ids plus all declared
dependency ids. -/
def nodeUniverse (targets : Dict BRow) : List String :=
  dictKeys targets ++ targets.flatMap (fun kv => kv.2.depends)

theorem nodeUniverse_length (targets : Dict BRow) :
    (nodeUniverse targets).length =
      targets.length + totalDeps targets := by
  rw [nodeUniverse, List.length_append, dictKeys_length]
  congr 1
  induction targets with
  | nil => rfl
  | cons hd rest ih =>
      rw [List.flatMap_cons, List.length_append, ih]
      show _ = (List.map (fun kv => kv.2.depends.length) (hd :: rest)).sum
      rw [List.map_cons, List.sum_cons]
      rfl

theorem buildGraph_closed (targets : Dict BRow) :
    ∀ u, ∀ v ∈ buildGraph targets u, v ∈ nodeUniverse targets := by
  intro u v hv
  rw [buildGraph] at hv
  cases hfind : dictFind targets u with
  | none => rw [hfind] at hv; cases hv
  | some t =>
      rw [hfind] at hv
      apply List.mem_append_right
      exact List.mem_flatMap.mpr ⟨(u, t), dictFind_mem targets u t hfind,
        hv⟩

/-! ### Claim C5: cycle detection -/

/-- C5: cycle detection is sound — every returned cycle is a valid
closed walk: consecutive elements are forward edges and the first and
last elements coincide, with length at least two — and complete: if
the snapshot's graph carries any closed walk, the returned list is
non-empty. Completeness rests on the DFS finish order: were no cycle
recorded, finishing positions would strictly decrease along every
edge, which a closed walk contradicts. -/
theorem C5_cycle_detection (targets : Dict BRow) :
    (∀ c ∈ detectCycles targets,
      IsWalk (buildGraph targets) c ∧ 2 ≤ c.length ∧
      c.head? = c.getLast?) ∧
    (∀ c, IsWalk (buildGraph targets) c → 2 ≤ c.length →
      c.head? = c.getLast? → detectCycles targets ≠ []) := by
  have hcyc : detectCycles targets =
      (detectCyclesIGo (buildGraph targets)
        (targets.length + totalDeps targets + 1) (dictKeys targets)
        { visited := [], finished := [], cycles := [] }).cycles := by
    have hproj := detectCyclesIGo_proj (buildGraph targets)
      (targets.length + totalDeps targets + 1) (dictKeys targets)
      { visited := [], finished := [], cycles := [] }
    have h₂ := congrArg Prod.snd hproj
    dsimp only at h₂
    rw [detectCycles]
    exact h₂.symm
  obtain ⟨⟨F, hF⟩, hWF, ⟨Δ, hΔ⟩, hEP, hcov, hsnd⟩ :=
    detectCyclesIGo_props (buildGraph targets) (nodeUniverse targets)
      (buildGraph_closed targets) []
      (targets.length + totalDeps targets + 1) (dictKeys targets)
      (fun n hn => List.mem_append_left _ hn)
      { visited := [], finished := [], cycles := [] }
      ⟨fun x hx => (by cases hx), List.nodup_nil,
        fun x hx => (by cases hx), fun x hx => (by cases hx),
        fun x hx => (by cases hx), List.nodup_nil,
        fun x hx => (by cases hx)⟩
      (by
        rw [nodeUniverse_length]
        simp)
      ⟨[], by simp⟩ (fun _ => edgeProp_nil _)
  constructor
  · intro c hcmem
    rw [hcyc] at hcmem
    rcases hsnd c hcmem with h | h
    · cases h
    · exact h
  · intro c hw hlen hcl hnil
    rw [hcyc] at hnil
    have hEP₂ := hEP hnil
    have hndF := hWF.2.2.2.2.2.1
    have hsrc : ∀ u v, v ∈ buildGraph targets u →
        u ∈ (detectCyclesIGo (buildGraph targets)
          (targets.length + totalDeps targets + 1) (dictKeys targets)
          { visited := [], finished := [], cycles := [] }).finished := by
      intro u v hv
      rw [buildGraph] at hv
      cases hfind : dictFind targets u with
      | none => rw [hfind] at hv; cases hv
      | some t =>
          exact hcov u (dictFind_mem_keys targets u t hfind)
    obtain ⟨x, t, hc⟩ := closed_decomp c hlen hcl
    rw [hc] at hw
    have := walk_pos_lt (buildGraph targets) _ hndF hEP₂ hsrc t x x hw
    omega

/-- A self-loop snapshot: row `a` depends on itself. -/
def c5Rows : List CliRaw :=
  [{ id := some "a", depends := .list ["a"] }]

/-- The loaded self-loop snapshot. -/
def c5S : Dict BRow := buildLoadTargets c5Rows

/-- Witness for C5 at the self-loop snapshot: the closed walk
`[a, a]` makes the theorem produce a non-empty result, and the
detector indeed returns exactly that cycle. -/
theorem C5_cycle_detection_witness :
    detectCycles c5S ≠ [] ∧ detectCycles c5S = [["a", "a"]] := by
  constructor
  · exact (C5_cycle_detection c5S).2 ["a", "a"]
      ((isWalk_cons_cons (buildGraph c5S) "a" "a" []).mpr
        ⟨by decide, isWalk_one (buildGraph c5S) "a"⟩)
      (by decide) (by decide)
  · decide

end Topdown
